import Mathlib

/-!
Verification of the agentic-anysite-scraper core against its specification.

The development shallowly embeds the TypeScript sources:
  * `ScrapingEngine` (ScrapingEngine.ts): URL canonicalization, result
    cleaning/deduplication, common-image removal, the snapshot-driven
    scraping loop with its error/retry handling and termination checks.
  * `PageSnapshot` (extractor.ts): repetition-based list detection,
    pagination candidate scoring and ranking, snapshot assembly with its
    size caps and the `refId`/`refMap` registration.

Strings are modelled as Lean `String`/`List Char`.  The WHATWG `URL`
platform class used by `canonicalForDedupe`/`toAbsoluteUrl` is modelled by
an explicit `scheme://host path ?query #fragment` record with ASCII
case-normalisation of scheme and host; relative-URL resolution against a
base URL and percent-encoding normalisation are not modelled (the model's
parser rejects relative references, which then flow through the same
`catch`-style fallback branch the source has for unparseable URLs).
Geometry (`getBoundingClientRect`) is modelled with integer widths and
heights.  All definitions are executable.
-/

namespace Scraper

/-- ASCII lowercase map, mirroring what `String.prototype.toLowerCase` and
the WHATWG URL parser do on the ASCII characters that appear in schemes and
hosts.  Non-uppercase characters are unchanged. -/
def lowerChar (c : Char) : Char :=
  match c with
  | 'A' => 'a' | 'B' => 'b' | 'C' => 'c' | 'D' => 'd' | 'E' => 'e'
  | 'F' => 'f' | 'G' => 'g' | 'H' => 'h' | 'I' => 'i' | 'J' => 'j'
  | 'K' => 'k' | 'L' => 'l' | 'M' => 'm' | 'N' => 'n' | 'O' => 'o'
  | 'P' => 'p' | 'Q' => 'q' | 'R' => 'r' | 'S' => 's' | 'T' => 't'
  | 'U' => 'u' | 'V' => 'v' | 'W' => 'w' | 'X' => 'x' | 'Y' => 'y'
  | 'Z' => 'z'
  | c => c

/-- Lowercase every character of a character list. -/
def lowerStr (l : List Char) : List Char := l.map lowerChar

/-- Split a character list at the first occurrence of `c`, returning the
parts before and after it (the separator excluded), or `none` when `c` does
not occur. -/
def splitFirst (c : Char) : List Char → Option (List Char × List Char)
  | [] => none
  | x :: xs =>
    if x = c then some ([], xs)
    else (splitFirst c xs).map (fun p => (x :: p.1, p.2))

theorem splitFirst_eq_append {c : Char} : ∀ {l a b : List Char},
    splitFirst c l = some (a, b) → l = a ++ c :: b ∧ c ∉ a := by
  intro l
  induction l with
  | nil => intro a b h; simp [splitFirst] at h
  | cons x xs ih =>
    intro a b h
    by_cases hx : x = c
    · simp [splitFirst, hx] at h
      obtain ⟨ha, hb⟩ := h
      subst ha; subst hb; subst hx
      simp
    · cases hsp : splitFirst c xs with
      | none => simp [splitFirst, hx, hsp] at h
      | some p =>
        obtain ⟨p1, p2⟩ := p
        simp [splitFirst, hx, hsp] at h
        obtain ⟨ha, hb⟩ := h
        obtain ⟨h1, h2⟩ := ih hsp
        subst ha; subst hb
        constructor
        · simp [h1]
        · simp
          exact ⟨fun hcx => hx hcx.symm, h2⟩

theorem splitFirst_of_not_mem {c : Char} : ∀ {l : List Char},
    c ∉ l → splitFirst c l = none := by
  intro l
  induction l with
  | nil => intro _; rfl
  | cons x xs ih =>
    intro h
    have hx : ¬ x = c := fun hc => h (by simp [hc])
    have hxs : c ∉ xs := fun hc => h (by simp [hc])
    simp [splitFirst, hx, ih hxs]

theorem splitFirst_append_cons {c : Char} {a b : List Char} (ha : c ∉ a) :
    splitFirst c (a ++ c :: b) = some (a, b) := by
  induction a with
  | nil => simp [splitFirst]
  | cons x xs ih =>
    have hx : ¬ x = c := fun hc => ha (by simp [hc])
    have hxs : c ∉ xs := fun hc => ha (by simp [hc])
    simp [splitFirst, hx, ih hxs]

theorem splitFirst_ne_none_of_mem {c : Char} : ∀ {l : List Char},
    c ∈ l → splitFirst c l ≠ none := by
  intro l
  induction l with
  | nil => intro h; simp at h
  | cons x xs ih =>
    intro h
    by_cases hx : x = c
    · simp [splitFirst, hx]
    · have hxs : c ∈ xs := by
        rcases List.mem_cons.mp h with h1 | h1
        · exact absurd h1.symm hx
        · exact h1
      cases hsp : splitFirst c xs with
      | none => exact absurd hsp (ih hxs)
      | some p => simp [splitFirst, hx, hsp]

theorem splitFirst_length {c : Char} {l a b : List Char}
    (h : splitFirst c l = some (a, b)) : b.length < l.length := by
  have := (splitFirst_eq_append h).1
  subst this
  simp
  omega

/-- Split on every occurrence of `c`, with the remaining length as
explicit recursion fuel (each separator consumes at least one character,
so `l.length` steps always suffice). -/
def splitOnCharAux (c : Char) : Nat → List Char → List (List Char)
  | 0, l => [l]
  | Nat.succ fuel, l =>
    match splitFirst c l with
    | none => [l]
    | some (a, b) => a :: splitOnCharAux c fuel b

/-- Split a character list on every occurrence of `c`
(`String.prototype.split`-style, keeping empty segments). -/
def splitOnChar (c : Char) (l : List Char) : List (List Char) :=
  splitOnCharAux c l.length l

theorem splitOnCharAux_irrel {c : Char} : ∀ (n m : Nat) (l : List Char),
    l.length ≤ n → l.length ≤ m →
    splitOnCharAux c n l = splitOnCharAux c m l := by
  intro n
  induction n with
  | zero =>
    intro m l hn _
    have hl : l = [] := by cases l <;> simp_all
    subst hl
    cases m with
    | zero => rfl
    | succ m => simp [splitOnCharAux, splitFirst]
  | succ n ih =>
    intro m l hn hm
    cases m with
    | zero =>
      have hl : l = [] := by cases l <;> simp_all
      subst hl
      simp [splitOnCharAux, splitFirst]
    | succ m =>
      show (match splitFirst c l with
            | none => [l]
            | some (a, b) => a :: splitOnCharAux c n b)
          = (match splitFirst c l with
            | none => [l]
            | some (a, b) => a :: splitOnCharAux c m b)
      cases hsp : splitFirst c l with
      | none => rfl
      | some p =>
        obtain ⟨a, b⟩ := p
        have hb := splitFirst_length hsp
        simp only
        rw [ih m b (by omega) (by omega)]

/-- The natural unfolding of `splitOnChar`: split off the first segment
and recurse on the rest. -/
theorem splitOnChar_eq (c : Char) (l : List Char) :
    splitOnChar c l =
      match splitFirst c l with
      | none => [l]
      | some (a, b) => a :: splitOnChar c b := by
  unfold splitOnChar
  cases l with
  | nil => rfl
  | cons x xs =>
    show (match splitFirst c (x :: xs) with
          | none => [x :: xs]
          | some (a, b) => a :: splitOnCharAux c xs.length b)
        = _
    cases hsp : splitFirst c (x :: xs) with
    | none => rfl
    | some p =>
      obtain ⟨a, b⟩ := p
      have hb := splitFirst_length hsp
      simp only
      rw [splitOnCharAux_irrel xs.length b.length b
        (by simp at hb; omega) (Nat.le_refl _)]

theorem splitOnChar_not_mem_aux {c : Char} : ∀ (n : Nat) (l : List Char),
    l.length ≤ n → ∀ s ∈ splitOnChar c l, c ∉ s := by
  intro n
  induction n with
  | zero =>
    intro l hl s hs
    have : l = [] := by cases l <;> simp_all
    subst this
    rw [splitOnChar_eq] at hs
    simp [splitFirst] at hs
    subst hs
    simp
  | succ n ih =>
    intro l hl s hs
    rw [splitOnChar_eq] at hs
    split at hs
    · next hnone =>
      simp at hs
      subst hs
      intro hc
      exact splitFirst_ne_none_of_mem hc hnone
    · next a b heq =>
      obtain ⟨hdecomp, hnot⟩ := splitFirst_eq_append heq
      simp at hs
      rcases hs with hs | hs
      · subst hs; exact hnot
      · refine ih b ?_ s hs
        subst hdecomp
        simp at hl
        omega

theorem splitOnChar_not_mem {c : Char} {l : List Char} :
    ∀ s ∈ splitOnChar c l, c ∉ s :=
  splitOnChar_not_mem_aux l.length l (Nat.le_refl _)

theorem splitOnChar_subset_aux {c : Char} : ∀ (n : Nat) (l : List Char),
    l.length ≤ n → ∀ s ∈ splitOnChar c l, ∀ x ∈ s, x ∈ l := by
  intro n
  induction n with
  | zero =>
    intro l hl s hs x hx
    have : l = [] := by cases l <;> simp_all
    subst this
    rw [splitOnChar_eq] at hs
    simp [splitFirst] at hs
    subst hs
    exact hx
  | succ n ih =>
    intro l hl s hs x hx
    rw [splitOnChar_eq] at hs
    split at hs
    · next hnone =>
      simp at hs; subst hs; exact hx
    · next a b heq =>
      obtain ⟨hdecomp, _⟩ := splitFirst_eq_append heq
      simp at hs
      rcases hs with hs | hs
      · subst hs; subst hdecomp; simp [hx]
      · have hb : b.length ≤ n := by subst hdecomp; simp at hl; omega
        have := ih b hb s hs x hx
        subst hdecomp; simp [this]

theorem splitOnChar_subset {c : Char} {l : List Char} :
    ∀ s ∈ splitOnChar c l, ∀ x ∈ s, x ∈ l :=
  splitOnChar_subset_aux l.length l (Nat.le_refl _)

theorem splitOnChar_append_cons {c : Char} {a b : List Char} (ha : c ∉ a) :
    splitOnChar c (a ++ c :: b) = a :: splitOnChar c b := by
  rw [splitOnChar_eq]
  rw [splitFirst_append_cons ha]

theorem splitOnChar_of_not_mem {c : Char} {l : List Char} (h : c ∉ l) :
    splitOnChar c l = [l] := by
  rw [splitOnChar_eq]
  rw [splitFirst_of_not_mem h]

/-- Lowercase ASCII letters, the possible outputs of `lowerChar` on
uppercase input. -/
def lowerABC : List Char :=
  ['a', 'b', 'c', 'd', 'e', 'f', 'g', 'h', 'i', 'j', 'k', 'l', 'm',
   'n', 'o', 'p', 'q', 'r', 's', 't', 'u', 'v', 'w', 'x', 'y', 'z']

theorem lowerChar_cases (c : Char) : lowerChar c = c ∨ lowerChar c ∈ lowerABC := by
  unfold lowerChar
  split
  all_goals first
    | (left; rfl)
    | (right; decide)

theorem lowerChar_of_mem_lowerABC {c : Char} (h : c ∈ lowerABC) : lowerChar c = c := by
  fin_cases h <;> rfl

theorem lowerChar_idem (c : Char) : lowerChar (lowerChar c) = lowerChar c := by
  rcases lowerChar_cases c with h | h
  · rw [h, h]
  · rw [lowerChar_of_mem_lowerABC h]

theorem lowerStr_idem (l : List Char) : lowerStr (lowerStr l) = lowerStr l := by
  unfold lowerStr
  rw [List.map_map]
  exact List.map_congr_left (fun c _ => lowerChar_idem c)

theorem mem_lowerStr {l : List Char} {x : Char} (h : x ∈ lowerStr l) :
    ∃ y ∈ l, x = lowerChar y := by
  obtain ⟨y, hy, hxy⟩ := List.mem_map.mp h
  exact ⟨y, hy, hxy.symm⟩

/-! URL model.  The `WHATWG URL` class used by `canonicalForDedupe` and
`toAbsoluteUrl` in ScrapingEngine.ts is modelled by a record of the parts
the canonicalizer manipulates, with a parser/serializer for absolute
`scheme://host/path?query#fragment` references. -/

/-- Characters allowed in a URL scheme (ASCII alphanumeric plus `+`, `-`,
`.`), as in the WHATWG URL grammar. -/
def isSchemeChar (c : Char) : Bool :=
  c.isAlpha || c.isDigit || c = '+' || c = '-' || c = '.'

/-- A character that does not terminate the host portion of a URL. -/
def notHostDelim (c : Char) : Bool := !(c = '/' || c = '?' || c = '#')

/-- A character that does not terminate the path portion of a URL. -/
def notPathDelim (c : Char) : Bool := !(c = '?' || c = '#')

theorem isSchemeChar_lowerChar {c : Char} (h : isSchemeChar c = true) :
    isSchemeChar (lowerChar c) = true := by
  rcases lowerChar_cases c with hc | hc
  · rw [hc]; exact h
  · revert hc
    generalize lowerChar c = d
    intro hc
    fin_cases hc <;> rfl

theorem notHostDelim_lowerChar {c : Char} (h : notHostDelim c = true) :
    notHostDelim (lowerChar c) = true := by
  rcases lowerChar_cases c with hc | hc
  · rw [hc]; exact h
  · revert hc
    generalize lowerChar c = d
    intro hc
    fin_cases hc <;> rfl

/-- The components of a parsed URL, as manipulated by
`ScrapingEngine.canonicalForDedupe` (protocol, hostname, pathname, search
parameters, hash). -/
structure URLModel where
  scheme : List Char
  host : List Char
  path : List Char
  params : List (List Char × List Char)
  frag : Option (List Char)
deriving DecidableEq, Repr

/-- Parse one `key=value` search parameter (`URLSearchParams` semantics:
the key is everything before the first `=`; a segment without `=` becomes a
key with empty value). -/
def parseParam (s : List Char) : List Char × List Char :=
  match splitFirst '=' s with
  | some (k, v) => (k, v)
  | none => (s, [])

/-- Parse a query string into search parameters (`URLSearchParams`
semantics: split on `&`, skip empty segments). -/
def parseQuery (q : List Char) : List (List Char × List Char) :=
  ((splitOnChar '&' q).filter (fun s => !s.isEmpty)).map parseParam

/-- Serialize search parameters back into a query string. -/
def serializeQuery : List (List Char × List Char) → List Char
  | [] => []
  | [(k, v)] => k ++ ('=' :: v)
  | (k, v) :: ps => k ++ ('=' :: (v ++ ('&' :: serializeQuery ps)))

/-- Parse an absolute URL of the shape
`scheme://host/path?query#fragment`.  Scheme and host are ASCII-lowercased
as the WHATWG parser does.  Relative references (no `://`) are rejected,
which routes them through the same fallback branch the source uses for
URLs that `new URL(...)` throws on. -/
def parseURL (l : List Char) : Option URLModel :=
  match l.dropWhile isSchemeChar with
  | ':' :: '/' :: '/' :: r1 =>
    match (r1.dropWhile notHostDelim).dropWhile notPathDelim with
    | '?' :: r4 =>
      match splitFirst '#' r4 with
      | some (q, f) =>
        some ⟨lowerStr (l.takeWhile isSchemeChar),
              lowerStr (r1.takeWhile notHostDelim),
              (r1.dropWhile notHostDelim).takeWhile notPathDelim,
              parseQuery q, some f⟩
      | none =>
        some ⟨lowerStr (l.takeWhile isSchemeChar),
              lowerStr (r1.takeWhile notHostDelim),
              (r1.dropWhile notHostDelim).takeWhile notPathDelim,
              parseQuery r4, none⟩
    | '#' :: r4 =>
      some ⟨lowerStr (l.takeWhile isSchemeChar),
            lowerStr (r1.takeWhile notHostDelim),
            (r1.dropWhile notHostDelim).takeWhile notPathDelim,
            [], some r4⟩
    | _ =>
      some ⟨lowerStr (l.takeWhile isSchemeChar),
            lowerStr (r1.takeWhile notHostDelim),
            (r1.dropWhile notHostDelim).takeWhile notPathDelim,
            [], none⟩
  | _ => none

/-- Serialize a URL record back to a string (`URL.prototype.toString`). -/
def serializeURL (r : URLModel) : List Char :=
  r.scheme ++ [':', '/', '/'] ++ r.host ++ r.path
    ++ (if r.params.isEmpty then [] else '?' :: serializeQuery r.params)
    ++ (match r.frag with | none => [] | some f => '#' :: f)

/-- The fixed list of tracking query parameters deleted by
`ScrapingEngine.canonicalForDedupe`. -/
def trackingParams : List String :=
  ["utm_source", "utm_medium", "utm_campaign", "utm_term", "utm_content",
   "gclid", "fbclid", "mc_cid", "mc_eid", "msclkid", "_hsenc", "_hsmi",
   "ref", "ref_src", "ref_url", "igshid"]

/-- Tracking parameter names as character lists. -/
def trackingKeys : List (List Char) := trackingParams.map String.toList

/-- The mutation `canonicalForDedupe` performs on a parsed URL: clear the
hash, delete tracking parameters (the empty-query case is handled by the
serializer, matching `url.search = ''`), and lowercase protocol and
hostname. -/
def cleanURL (r : URLModel) : URLModel :=
  { scheme := lowerStr r.scheme
    host := lowerStr r.host
    path := r.path
    params := r.params.filter (fun p => !(trackingKeys.contains p.1))
    frag := none }

/-- `ScrapingEngine.canonicalForDedupe` on character lists: parse, clean,
re-serialize; on parse failure return the input unchanged (the `catch`
branch). -/
def canonicalCore (l : List Char) : List Char :=
  match parseURL l with
  | some r => serializeURL (cleanURL r)
  | none => l

/-- `ScrapingEngine.canonicalForDedupe` on strings. -/
def canonicalForDedupe (s : String) : String :=
  String.mk (canonicalCore s.data)

theorem takeWhile_append_all {p : Char → Bool} : ∀ {a b : List Char},
    (∀ c ∈ a, p c = true) → (a ++ b).takeWhile p = a ++ b.takeWhile p := by
  intro a
  induction a with
  | nil => intro b _; simp
  | cons x xs ih =>
    intro b h
    have hx : p x = true := h x (by simp)
    have hxs : ∀ c ∈ xs, p c = true := fun c hc => h c (by simp [hc])
    simp [List.takeWhile_cons, hx, ih hxs]

theorem dropWhile_append_all {p : Char → Bool} : ∀ {a b : List Char},
    (∀ c ∈ a, p c = true) → (a ++ b).dropWhile p = b.dropWhile p := by
  intro a
  induction a with
  | nil => intro b _; simp
  | cons x xs ih =>
    intro b h
    have hx : p x = true := h x (by simp)
    have hxs : ∀ c ∈ xs, p c = true := fun c hc => h c (by simp [hc])
    simp [List.dropWhile_cons, hx, ih hxs]

theorem takeWhile_cons_of_neg {p : Char → Bool} {x : Char} {xs : List Char}
    (h : p x = false) : (x :: xs).takeWhile p = [] := by
  simp [List.takeWhile_cons, h]

theorem dropWhile_cons_of_neg {p : Char → Bool} {x : Char} {xs : List Char}
    (h : p x = false) : (x :: xs).dropWhile p = x :: xs := by
  simp [List.dropWhile_cons, h]

theorem mem_takeWhile_sat {p : Char → Bool} : ∀ {l : List Char} {x : Char},
    x ∈ l.takeWhile p → p x = true := by
  intro l
  induction l with
  | nil => intro x h; simp at h
  | cons y ys ih =>
    intro x h
    by_cases hy : p y = true
    · rw [List.takeWhile_cons, if_pos hy] at h
      rcases List.mem_cons.mp h with h1 | h1
      · subst h1; exact hy
      · exact ih h1
    · rw [List.takeWhile_cons, if_neg hy] at h
      simp at h

theorem dropWhile_head_neg {p : Char → Bool} :
    ∀ {l : List Char} {x : Char} {xs : List Char},
    l.dropWhile p = x :: xs → p x = false := by
  intro l
  induction l with
  | nil => intro x xs h; simp at h
  | cons y ys ih =>
    intro x xs h
    by_cases hy : p y = true
    · rw [List.dropWhile_cons, if_pos hy] at h
      exact ih h
    · rw [List.dropWhile_cons, if_neg hy] at h
      injection h with h1 h2
      subst h1
      exact Bool.eq_false_iff.mpr hy

/-- Well-formedness of a URL record in the image of `cleanURL ∘ parseURL`:
exactly the invariants the serializer/parser round trip needs. -/
def WF (r : URLModel) : Prop :=
  (∀ c ∈ r.scheme, isSchemeChar c = true) ∧
  lowerStr r.scheme = r.scheme ∧
  (∀ c ∈ r.host, notHostDelim c = true) ∧
  lowerStr r.host = r.host ∧
  (∀ c ∈ r.path, notPathDelim c = true) ∧
  (r.path = [] ∨ ∃ t, r.path = '/' :: t) ∧
  (∀ q ∈ r.params,
    ('=' ∉ q.1) ∧ ('&' ∉ q.1) ∧ ('#' ∉ q.1) ∧ ('&' ∉ q.2) ∧ ('#' ∉ q.2)) ∧
  r.frag = none

theorem mem_serializeQuery : ∀ {ps : List (List Char × List Char)} {x : Char},
    x ∈ serializeQuery ps →
    x = '=' ∨ x = '&' ∨ ∃ q ∈ ps, x ∈ q.1 ∨ x ∈ q.2 := by
  intro ps
  induction ps with
  | nil => intro x h; simp [serializeQuery] at h
  | cons p ps ih =>
    obtain ⟨k, v⟩ := p
    cases ps with
    | nil =>
      intro x h
      simp [serializeQuery] at h
      rcases h with h | h | h
      · exact .inr (.inr ⟨(k, v), by simp, .inl h⟩)
      · exact .inl h
      · exact .inr (.inr ⟨(k, v), by simp, .inr h⟩)
    | cons p2 ps2 =>
      intro x h
      simp only [serializeQuery, List.mem_append, List.mem_cons] at h
      rcases h with h | h | h | h | h
      · exact .inr (.inr ⟨(k, v), by simp, .inl h⟩)
      · exact .inl h
      · exact .inr (.inr ⟨(k, v), by simp, .inr h⟩)
      · exact .inr (.inl h)
      · rcases ih h with h3 | h3 | h3
        · exact .inl h3
        · exact .inr (.inl h3)
        · obtain ⟨q, hq1, hq2⟩ := h3
          exact .inr (.inr ⟨q, by simp [hq1], hq2⟩)

theorem not_mem_serializeQuery {ps : List (List Char × List Char)} {x : Char}
    (hx1 : x ≠ '=') (hx2 : x ≠ '&')
    (h : ∀ q ∈ ps, x ∉ q.1 ∧ x ∉ q.2) : x ∉ serializeQuery ps := by
  intro hmem
  rcases mem_serializeQuery hmem with h1 | h1 | h1
  · exact hx1 h1
  · exact hx2 h1
  · obtain ⟨q, hq1, hq2⟩ := h1
    rcases hq2 with hq2 | hq2
    · exact (h q hq1).1 hq2
    · exact (h q hq1).2 hq2

theorem parseQuery_serializeQuery :
    ∀ {ps : List (List Char × List Char)},
    (∀ q ∈ ps, ('=' ∉ q.1) ∧ ('&' ∉ q.1) ∧ ('&' ∉ q.2)) → ps ≠ [] →
    parseQuery (serializeQuery ps) = ps := by
  intro ps
  induction ps with
  | nil => intro _ hne; exact absurd rfl hne
  | cons p ps ih =>
    obtain ⟨k, v⟩ := p
    intro h _
    obtain ⟨hk1, hk2, hv2⟩ := h (k, v) (by simp)
    have hamp : '&' ∉ k ++ ('=' :: v) := by
      intro hmem
      rcases List.mem_append.mp hmem with h1 | h1
      · exact hk2 h1
      · rcases List.mem_cons.mp h1 with h2 | h2
        · exact absurd h2 (by decide)
        · exact hv2 h2
    have hne0 : ((k ++ ('=' :: v)).isEmpty = false) := by
      cases k <;> simp
    have hparam : parseParam (k ++ ('=' :: v)) = (k, v) := by
      simp [parseParam, splitFirst_append_cons hk1]
    cases ps with
    | nil =>
      rw [show serializeQuery [(k, v)] = k ++ ('=' :: v) from rfl]
      rw [parseQuery, splitOnChar_of_not_mem hamp]
      simp [hne0, hparam]
    | cons p2 ps2 =>
      have hrest : parseQuery (serializeQuery (p2 :: ps2)) = p2 :: ps2 :=
        ih (fun q hq => h q (by simp [hq])) (by simp)
      have hser : serializeQuery ((k, v) :: p2 :: ps2)
          = (k ++ ('=' :: v)) ++ ('&' :: serializeQuery (p2 :: ps2)) := by
        simp [serializeQuery]
      rw [hser, parseQuery, splitOnChar_append_cons hamp]
      rw [parseQuery] at hrest
      simp only [List.filter_cons, hne0]
      simp only [Bool.not_false, if_pos]
      simp only [List.map_cons, hparam]
      rw [hrest]

/-- Round trip: the parser inverts the serializer on well-formed records. -/
theorem parseURL_serializeURL {r : URLModel} (h : WF r) :
    parseURL (serializeURL r) = some r := by
  obtain ⟨hs, hsl, hh, hhl, hp, hpshape, hq, hf⟩ := h
  have hser : serializeURL r
      = r.scheme ++ (':' :: '/' :: '/' ::
        (r.host ++ (r.path ++
          (if r.params.isEmpty then [] else '?' :: serializeQuery r.params)))) := by
    simp [serializeURL, hf, List.append_assoc]
  set Q := (if r.params.isEmpty then ([] : List Char)
            else '?' :: serializeQuery r.params) with hQdef
  have hQtake : ∀ (p : Char → Bool), p '?' = false → Q.takeWhile p = [] := by
    intro p hp37
    rw [hQdef]
    by_cases he : r.params.isEmpty
    · simp [he]
    · simp [he, takeWhile_cons_of_neg hp37]
  have htail1 : (r.path ++ Q).takeWhile notHostDelim = [] := by
    rcases hpshape with h0 | ⟨t, ht⟩
    · rw [h0]
      simp only [List.nil_append]
      exact hQtake notHostDelim (by decide)
    · rw [ht]
      exact takeWhile_cons_of_neg (by decide)
  have h1 : (serializeURL r).takeWhile isSchemeChar = r.scheme := by
    rw [hser, takeWhile_append_all hs, takeWhile_cons_of_neg (by decide)]
    simp
  have h2 : (serializeURL r).dropWhile isSchemeChar
      = ':' :: '/' :: '/' :: (r.host ++ (r.path ++ Q)) := by
    rw [hser, dropWhile_append_all hs, dropWhile_cons_of_neg (by decide)]
  have h3 : (r.host ++ (r.path ++ Q)).takeWhile notHostDelim = r.host := by
    rw [takeWhile_append_all hh, htail1]
    simp
  have h4 : (r.host ++ (r.path ++ Q)).dropWhile notHostDelim = r.path ++ Q := by
    rw [dropWhile_append_all hh]
    rcases hpshape with h0 | ⟨t, ht⟩
    · rw [h0]
      simp only [List.nil_append]
      rw [hQdef]
      by_cases he : r.params.isEmpty
      · simp [he]
      · simp [he, dropWhile_cons_of_neg (show notHostDelim '?' = false by decide)]
    · rw [ht]
      exact dropWhile_cons_of_neg (by decide)
  have h5 : (r.path ++ Q).takeWhile notPathDelim = r.path := by
    rw [takeWhile_append_all hp, hQtake notPathDelim (by decide)]
    simp
  have h6 : (r.path ++ Q).dropWhile notPathDelim = Q := by
    rw [dropWhile_append_all hp]
    rw [hQdef]
    by_cases he : r.params.isEmpty
    · simp [he]
    · simp [he, dropWhile_cons_of_neg (show notPathDelim '?' = false by decide)]
  rw [parseURL]
  rw [h2]
  simp only [h3, h4, h5, h6]
  by_cases he : r.params.isEmpty
  · have hps : r.params = [] := List.isEmpty_iff.mp he
    rw [hQdef]
    simp only [he, if_pos]
    simp [h1, hsl, hhl]
    rw [← hps, ← hf]
  · have hps : r.params ≠ [] := fun hemp => he (by simp [hemp])
    rw [hQdef]
    simp only [he, if_neg, Bool.false_eq_true, not_false_eq_true]
    have hnohash : '#' ∉ serializeQuery r.params := by
      refine not_mem_serializeQuery (by decide) (by decide) ?_
      intro q hqm
      exact ⟨(hq q hqm).2.2.1, (hq q hqm).2.2.2.2⟩
    rw [splitFirst_of_not_mem hnohash]
    have hquery : parseQuery (serializeQuery r.params) = r.params := by
      refine parseQuery_serializeQuery ?_ hps
      intro q hqm
      exact ⟨(hq q hqm).1, (hq q hqm).2.1, (hq q hqm).2.2.2.1⟩
    simp [h1, hsl, hhl, hquery]
    rw [← hf]

theorem lowerStr_pres {P : Char → Bool}
    (hpres : ∀ c, P c = true → P (lowerChar c) = true) :
    ∀ {s : List Char}, (∀ c ∈ s, P c = true) → ∀ c ∈ lowerStr s, P c = true := by
  intro s hall c hc
  obtain ⟨y, hy, hcy⟩ := mem_lowerStr hc
  rw [hcy]
  exact hpres y (hall y hy)

theorem pathShape (r1 : List Char) :
    (r1.dropWhile notHostDelim).takeWhile notPathDelim = [] ∨
    ∃ t, (r1.dropWhile notHostDelim).takeWhile notPathDelim = '/' :: t := by
  cases hd : r1.dropWhile notHostDelim with
  | nil => left; simp
  | cons x xs =>
    have hx := dropWhile_head_neg hd
    have hx3 : x = '/' ∨ x = '?' ∨ x = '#' := by
      simp only [notHostDelim, Bool.not_eq_false', Bool.or_eq_true,
        decide_eq_true_eq] at hx
      tauto
    rcases hx3 with h1 | h1 | h1
    · subst h1
      right
      rw [List.takeWhile_cons, if_pos (by decide)]
      exact ⟨_, rfl⟩
    · subst h1; left; exact takeWhile_cons_of_neg (by decide)
    · subst h1; left; exact takeWhile_cons_of_neg (by decide)

theorem parseQuery_WF {q : List Char} (hq : '#' ∉ q) :
    ∀ p ∈ parseQuery q,
    ('=' ∉ p.1) ∧ ('&' ∉ p.1) ∧ ('#' ∉ p.1) ∧ ('&' ∉ p.2) ∧ ('#' ∉ p.2) := by
  intro p hp
  obtain ⟨s, hs, hps⟩ := List.mem_map.mp hp
  have hsmem := List.mem_of_mem_filter hs
  have hamp : '&' ∉ s := splitOnChar_not_mem s hsmem
  have hsub : ∀ x ∈ s, x ∈ q := splitOnChar_subset s hsmem
  have hhash : '#' ∉ s := fun hx => hq (hsub _ hx)
  cases hsp : splitFirst '=' s with
  | none =>
    have heq : '=' ∉ s := fun hx => splitFirst_ne_none_of_mem hx hsp
    rw [← hps]
    simp only [parseParam, hsp]
    exact ⟨heq, hamp, hhash, by simp, by simp⟩
  | some kv =>
    obtain ⟨k, v⟩ := kv
    obtain ⟨hdecomp, hknot⟩ := splitFirst_eq_append hsp
    rw [← hps]
    simp only [parseParam, hsp]
    subst hdecomp
    refine ⟨hknot, ?_, ?_, ?_, ?_⟩
    · exact fun hx => hamp (by simp [hx])
    · exact fun hx => hhash (by simp [hx])
    · exact fun hx => hamp (by simp [hx])
    · exact fun hx => hhash (by simp [hx])

theorem WF_clean_mk {A B C : List Char}
    {D : List (List Char × List Char)} {E : Option (List Char)}
    (hA : ∀ c ∈ A, isSchemeChar c = true)
    (hB : ∀ c ∈ B, notHostDelim c = true)
    (hC : ∀ c ∈ C, notPathDelim c = true)
    (hCs : C = [] ∨ ∃ t, C = '/' :: t)
    (hD : ∀ p ∈ D,
      ('=' ∉ p.1) ∧ ('&' ∉ p.1) ∧ ('#' ∉ p.1) ∧ ('&' ∉ p.2) ∧ ('#' ∉ p.2)) :
    WF (cleanURL ⟨A, B, C, D, E⟩) := by
  refine ⟨?_, ?_, ?_, ?_, ?_, ?_, ?_, rfl⟩
  · exact lowerStr_pres (fun c hc => isSchemeChar_lowerChar hc) hA
  · exact lowerStr_idem A
  · exact lowerStr_pres (fun c hc => notHostDelim_lowerChar hc) hB
  · exact lowerStr_idem B
  · exact hC
  · exact hCs
  · intro p hp
    exact hD p (List.mem_of_mem_filter hp)

theorem WF_cleanURL_of_parseURL {l : List Char} {r : URLModel}
    (h : parseURL l = some r) : WF (cleanURL r) := by
  rw [parseURL] at h
  have hA : ∀ c ∈ lowerStr (l.takeWhile isSchemeChar), isSchemeChar c = true :=
    lowerStr_pres (fun c hc => isSchemeChar_lowerChar hc)
      (fun c hc => mem_takeWhile_sat hc)
  split at h
  · rename_i r1 heq1
    have hB : ∀ c ∈ lowerStr (r1.takeWhile notHostDelim), notHostDelim c = true :=
      lowerStr_pres (fun c hc => notHostDelim_lowerChar hc)
        (fun c hc => mem_takeWhile_sat hc)
    have hC : ∀ c ∈ (r1.dropWhile notHostDelim).takeWhile notPathDelim,
        notPathDelim c = true := fun c hc => mem_takeWhile_sat hc
    have hCs := pathShape r1
    split at h
    · rename_i r4 heq2
      split at h
      · rename_i q f hqf
        obtain ⟨_, hqnot⟩ := splitFirst_eq_append hqf
        obtain rfl := Option.some.inj h
        exact WF_clean_mk hA hB hC hCs (parseQuery_WF hqnot)
      · rename_i hnone
        have hqnot : '#' ∉ r4 := fun hx => splitFirst_ne_none_of_mem hx hnone
        obtain rfl := Option.some.inj h
        exact WF_clean_mk hA hB hC hCs (parseQuery_WF hqnot)
    · rename_i r4 heq2
      obtain rfl := Option.some.inj h
      exact WF_clean_mk hA hB hC hCs (by intro p hp; simp at hp)
    · obtain rfl := Option.some.inj h
      exact WF_clean_mk hA hB hC hCs (by intro p hp; simp at hp)
  · exact absurd h (by simp)

theorem filter_filter_self {α : Type} (p : α → Bool) (l : List α) :
    (l.filter p).filter p = l.filter p := by
  induction l with
  | nil => rfl
  | cons x xs ih =>
    by_cases hx : p x = true
    · simp [List.filter_cons, hx, ih]
    · simp [List.filter_cons, hx, ih]

theorem cleanURL_idem (r : URLModel) : cleanURL (cleanURL r) = cleanURL r := by
  simp [cleanURL, lowerStr_idem, filter_filter_self]

theorem canonicalCore_idem (l : List Char) :
    canonicalCore (canonicalCore l) = canonicalCore l := by
  cases hp : parseURL l with
  | none =>
    have h0 : canonicalCore l = l := by simp [canonicalCore, hp]
    rw [h0]
    exact h0
  | some r =>
    have h0 : canonicalCore l = serializeURL (cleanURL r) := by
      simp [canonicalCore, hp]
    rw [h0]
    have hwf := WF_cleanURL_of_parseURL hp
    have h1 : canonicalCore (serializeURL (cleanURL r))
        = serializeURL (cleanURL (cleanURL r)) := by
      rw [canonicalCore, parseURL_serializeURL hwf]
    rw [h1, cleanURL_idem]

/-! Extraction records and `ScrapingEngine.cleanAndDedupeResults`.
A raw row is what one of the three extraction tiers produces in the page
context; a cleaned record is what `cleanAndDedupeResults` returns (the
spread `{...r, href, title, image}` keeps further fields, none of which the
engine reads again, so the model keeps the four it does). -/

/-- A raw extraction row (`title/snippet/href/image/tags`), before
cleaning. -/
structure RawRec where
  title : Option String := none
  snippet : Option String := none
  href : Option String := none
  image : Option String := none
  tags : Option (List String) := none
deriving DecidableEq, Repr

/-- A cleaned extraction record as stored in
`ScrapingState.extractedItems[..].data`. -/
structure Rec where
  title : Option String
  snippet : Option String
  href : Option String
  image : Option String
deriving DecidableEq, Repr

/-- JavaScript truthiness of a nullable string. -/
def truthy : Option String → Bool
  | some s => !(s = "")
  | none => false

/-- JavaScript string interpolation of a nullable string (`null` prints as
"null"). -/
def jsStr : Option String → String
  | some s => s
  | none => "null"

/-- JavaScript `||`-defaulting of a nullable string to the empty string. -/
def jsOrEmpty : Option String → String
  | some s => s
  | none => ""

/-- Whitespace characters removed by `String.prototype.trim` (the ASCII
subset). -/
def isJsWhitespace (c : Char) : Bool :=
  c = ' ' || c = '\t' || c = '\n' || c = '\r'

/-- `String.prototype.trim`. -/
def trimStr (s : String) : String :=
  String.mk (((s.data.dropWhile isJsWhitespace).reverse.dropWhile
    isJsWhitespace).reverse)

/-- Case-insensitive prefix test (the `/^pat/i` regex tests of the
source). -/
def startsWithCI (s pre : String) : Bool :=
  List.isPrefixOf (lowerStr pre.data) (lowerStr s.data)

/-- Scan for `.svg` followed by `?`, `#` or end of string
(the `/\.svg(\?|#|$)/i` test), on an already lowercased list. -/
def svgScan : List Char → Bool
  | [] => false
  | '.' :: rest =>
    (match rest with
     | 's' :: 'v' :: 'g' :: rest2 =>
       (match rest2 with
        | [] => true
        | c :: _ => (c = '?' || c = '#'))
     | _ => false)
    || svgScan rest
  | _ :: rest => svgScan rest

/-- The `/\.svg(\?|#|$)/i` test on a string. -/
def svgTest (s : String) : Bool := svgScan (lowerStr s.data)

/-- Index of the first occurrence of `pat` in a list, or `none`. -/
def findSubIdx (pat : List Char) : List Char → Option Nat
  | [] => if List.isPrefixOf pat [] then some 0 else none
  | x :: rest =>
    if List.isPrefixOf pat (x :: rest) then some 0
    else (findSubIdx pat rest).map (· + 1)

/-- `String.prototype.indexOf(pat, 1)` as an optional index (`none` for
-1). -/
def indexOfFrom1 (pat : List Char) (l : List Char) : Option Nat :=
  match l with
  | [] => none
  | _ :: rest => (findSubIdx pat rest).map (· + 1)

/-- `ScrapingEngine.fixDoubledAbsolute`: if `https://` (else `http://`)
occurs at an index ≥ 1, drop everything before it. -/
def fixDoubledAbsolute (u : String) : String :=
  let iHttps := indexOfFrom1 "https://".data u.data
  let iHttp := indexOfFrom1 "http://".data u.data
  match iHttps with
  | some i => String.mk (u.data.drop i)
  | none =>
    match iHttp with
    | some i => String.mk (u.data.drop i)
    | none => u

/-- `ScrapingEngine.absolutize`: keep already-absolute `http(s)` URLs,
prepend the base protocol to protocol-relative `//` URLs, otherwise
normalize through the URL parser (relative resolution against the base is
not modelled: such inputs take the `catch` branch and come back
unchanged). -/
def absolutize (u : String) (base : String) : String :=
  let v := trimStr u
  if v = "" then v
  else if startsWithCI v "https://" || startsWithCI v "http://" then v
  else if v.data.take 2 = ['/', '/'] then
    match parseURL base.data with
    | some r => String.mk r.scheme ++ ":" ++ v
    | none => "https:" ++ v
  else
    match parseURL v.data with
    | some r => String.mk (serializeURL r)
    | none => v

/-- `ScrapingEngine.toAbsoluteUrl` (relative resolution against
`state.currentUrl` not modelled; the `catch` branch returns the input). -/
def toAbsoluteUrl (u : String) : String :=
  match parseURL u.data with
  | some r => String.mk (serializeURL r)
  | none => u

/-- `ScrapingEngine.cleanImageUrl`: reject empty, `data:` and `.svg` URLs,
fix doubled absolute prefixes, absolutize, and require an `http(s):`
result. -/
def cleanImageUrl (raw : Option String) (pageUrl : String) : Option String :=
  match raw with
  | none => none
  | some s0 =>
    if s0 = "" then none
    else
      let u := trimStr s0
      if u = "" then none
      else if startsWithCI u "data:" then none
      else if svgTest u then none
      else
        let u2 := absolutize (fixDoubledAbsolute u) pageUrl
        if u2 = "" then none
        else if startsWithCI u2 "https:" || startsWithCI u2 "http:" then some u2
        else none

/-- `ScrapingEngine.promoteFromTags`: the first tag that survives
`cleanImageUrl`. -/
def promoteFromTags (tags : Option (List String)) (pageUrl : String) :
    Option String :=
  match tags with
  | none => none
  | some ts => (ts.filterMap (fun t => cleanImageUrl (some t) pageUrl)).head?

/-- The per-row normalisation step of `cleanAndDedupeResults` (absolute
href, trimmed title, cleaned image with tag promotion). -/
def cleanRow (r : RawRec) (pageUrl : String) : Rec :=
  { title :=
      match r.title with
      | some t => if t = "" then none else some (trimStr t)
      | none => none
    snippet := r.snippet
    href :=
      match r.href with
      | some h => if h = "" then none else some (toAbsoluteUrl h)
      | none => none
    image :=
      match cleanImageUrl r.image pageUrl with
      | some u => some u
      | none => promoteFromTags r.tags pageUrl }

/-- The `r.title || r.href || r.snippet` keep-filter of
`cleanAndDedupeResults`. -/
def keepSome (r : Rec) : Bool := truthy r.title || truthy r.href || truthy r.snippet

/-- The `(title, snippet)` fallback dedup key
(the template literal renders a null title as "null" and a null snippet as
the empty string). -/
def fallbackKey (r : Rec) : String :=
  jsStr r.title ++ "|" ++ jsOrEmpty r.snippet

/-- The dedup key of a cleaned record: canonical href when the href is
truthy (and canonicalizes to something nonempty), else the
`(title, snippet)` fallback. -/
def keyOf (r : Rec) : String :=
  let k1 :=
    match r.href with
    | some h => if h = "" then "" else canonicalForDedupe h
    | none => ""
  if k1 = "" then fallbackKey r else k1

/-- The global dedup set: canonical hrefs of every previously extracted
record (`existingGlobal`); entries that canonicalize to the empty string
are dropped by the `filter(Boolean)`. -/
def existingKeys (items : List Rec) : List String :=
  (items.map (fun x => canonicalForDedupe (jsOrEmpty x.href))).filter
    (fun s => !(s = ""))

/-- The dedup filter of `cleanAndDedupeResults`: drop empty keys, drop
records whose canonical href is already in the global set, drop records
whose key was already seen in this batch (`localSeen`). -/
def dedupePass (ex : List String) : List String → List Rec → List Rec
  | _, [] => []
  | seen, r :: rs =>
    if keyOf r = "" then dedupePass ex seen rs
    else if (match r.href with
             | some h => !(h = "") && ex.contains (canonicalForDedupe h)
             | none => false) then dedupePass ex seen rs
    else if seen.contains (keyOf r) then dedupePass ex seen rs
    else r :: dedupePass ex (keyOf r :: seen) rs

/-- Per-image occurrence counts of a batch, in first-occurrence order
(JavaScript object keys for non-index string keys). -/
def bumpCount : List (String × Nat) → String → List (String × Nat)
  | [], k => [(k, 1)]
  | (a, n) :: t, k => if a = k then (a, n + 1) :: t else (a, n) :: bumpCount t k

/-- Occurrence counts of the image URLs of a batch. -/
def imageCounts (l : List Rec) : List (String × Nat) :=
  l.foldl
    (fun acc r => match r.image with | some i => bumpCount acc i | none => acc) []

/-- The first image URL (in first-occurrence order) with count ≥ 5, the
one `Object.entries(counts).find(([_, c]) => c >= 5)` returns. -/
def firstCommonImage (l : List Rec) : Option String :=
  ((imageCounts l).find? (fun p => 5 ≤ p.2)).map (fun p => p.1)

/-- `ScrapingEngine.removeCommonImages`: null out the first image URL that
recurs at least 5 times in the batch (and only that one). -/
def removeCommonImages (l : List Rec) : List Rec :=
  match firstCommonImage l with
  | none => l
  | some bad =>
    l.map (fun r => if r.image = some bad then { r with image := none } else r)

/-- The raw rows after per-row cleaning and the
`r.title || r.href || r.snippet` keep-filter (the `.map(...).filter(...)`
stage of `cleanAndDedupeResults`). -/
def cleanedRows (results : List RawRec) (pageUrl : String) : List Rec :=
  (results.map (fun r => cleanRow r pageUrl)).filter keepSome

/-- `ScrapingEngine.cleanAndDedupeResults existing results maxNeeded`:
normalise rows, keep those with a truthy title/href/snippet, dedupe
against the global set and the local batch, truncate to the remaining
capacity, then remove the recurring common image. -/
def cleanAndDedupeResults (existing : List Rec) (results : List RawRec)
    (maxNeeded : Nat) (pageUrl : String) : List Rec :=
  removeCommonImages
    ((dedupePass (existingKeys existing) []
      (cleanedRows results pageUrl)).take maxNeeded)

/-! The snapshot-driven scraping loop (`ScrapingEngine.scrapingLoop`),
modelled as a function of a per-cycle script: each cycle either completes
(with the raw rows its three extraction tiers would produce, the
link-following child extractions, and whether pagination advanced) or
throws (optionally after a partial extraction).  The browser itself is the
environment; everything the loop does with the state is modelled. -/

/-- The `target` part of the schema used by the loop. -/
structure TargetM where
  maxPages : Option Nat
  maxItems : Option Nat
deriving DecidableEq, Repr

/-- The schema fields the loop reads. -/
structure SchemaM where
  target : TargetM
  followLinks : Bool
deriving DecidableEq, Repr

/-- The retry configuration (`config.retry.attempts`,
`config.retry.delay`). -/
structure ConfigM where
  retryAttempts : Option Nat
  retryDelay : Option Nat
deriving DecidableEq, Repr

/-- The loop-owned scraping state (`extractedItems` keeps the `data`
records; `visitedUrls`/`currentUrl` bookkeeping is not read by the
properties below). -/
structure EngineState where
  items : List Rec
  page : Nat
  errors : Nat
deriving DecidableEq, Repr

/-- One truthiness-guarded limit check of `shouldContinue`:
`limit && value >= limit`. -/
def limitHit (m : Option Nat) (v : Nat) : Bool :=
  match m with
  | some n => !(n = 0) && decide (n ≤ v)
  | none => false

/-- `ScrapingEngine.shouldContinue`. -/
def shouldContinue (sch : SchemaM) (st : EngineState) : Bool :=
  !(limitHit sch.target.maxPages st.page)
    && !(limitHit sch.target.maxItems st.items.length)

/-- `Number.MAX_SAFE_INTEGER`, the default of `target.maxItems ?? ...`. -/
def maxSafeInteger : Nat := 9007199254740991

/-- Remaining extraction capacity
(`Math.max((maxItems ?? MAX_SAFE_INTEGER) - alreadyExtracted, 0)`;
truncated subtraction is exactly the `Math.max(..., 0)`). -/
def maxNeeded (sch : SchemaM) (st : EngineState) : Nat :=
  sch.target.maxItems.getD maxSafeInteger - st.items.length

/-- The raw rows the three extraction tiers of one snapshot would
produce. -/
structure ExtractIn where
  tier1 : List RawRec := []
  tier2 : List RawRec := []
  tier3 : List RawRec := []
deriving DecidableEq, Repr

/-- `ScrapingEngine.extractItemsFromSnapshot`: skip entirely at zero
capacity, else the first tier whose cleaned result is nonempty wins. -/
def extractItemsFromSnapshot (sch : SchemaM) (pageUrl : String)
    (st : EngineState) (e : ExtractIn) : List Rec :=
  let n := maxNeeded sch st
  if n = 0 then []
  else
    let r1 := cleanAndDedupeResults st.items e.tier1 n pageUrl
    if !r1.isEmpty then r1
    else
      let r2 := cleanAndDedupeResults st.items e.tier2 n pageUrl
      if !r2.isEmpty then r2
      else cleanAndDedupeResults st.items e.tier3 n pageUrl

/-- Append freshly extracted records to the run state
(`state.extractedItems.push(...)`). -/
def pushItems (st : EngineState) (xs : List Rec) : EngineState :=
  { st with items := st.items ++ xs }

/-- The link-following inner loop of a cycle: visit each child page and
extract there, stopping early once `shouldContinue` fails. -/
def runChildren (sch : SchemaM) (pageUrl : String) :
    EngineState → List ExtractIn → EngineState
  | st, [] => st
  | st, c :: cs =>
    if shouldContinue sch st then
      runChildren sch pageUrl
        (pushItems st (extractItemsFromSnapshot sch pageUrl st c)) cs
    else st

/-- The environment of one cycle: either it completes (extraction input,
child-page extractions, whether the loop advanced to another page), or it
throws somewhere (optionally after the main extraction already ran). -/
inductive CycleIn where
  | ok (ext : ExtractIn) (children : List ExtractIn) (advanced : Bool)
  | err (ext : Option ExtractIn)
deriving DecidableEq, Repr

/-- Observable events of a run: a cycle beginning (with the error count
and page number at its start), and a retry backoff wait. -/
inductive TraceEvent where
  | cycleStart (errors page : Nat)
  | waited (ms : Nat)
deriving DecidableEq, Repr

/-- `ScrapingEngine.scrapingLoop`: while `shouldContinue`, run a cycle;
a completed cycle that did not advance breaks; a caught error increments
the error count, breaks once the retry-attempt ceiling is reached, and
otherwise waits the fixed configured delay and retries. -/
def scrapingLoop (sch : SchemaM) (cfg : ConfigM) (pageUrl : String)
    (script : List CycleIn) (st : EngineState) :
    EngineState × List TraceEvent :=
  if shouldContinue sch st then
      match script with
      | [] => (st, [])
      | (CycleIn.ok e cs adv) :: rest =>
        let st1 := pushItems st (extractItemsFromSnapshot sch pageUrl st e)
        let st2 := if sch.followLinks then runChildren sch pageUrl st1 cs else st1
        if adv then
          let res := scrapingLoop sch cfg pageUrl rest
            { st2 with page := st2.page + 1 }
          (res.1, TraceEvent.cycleStart st.errors st.page :: res.2)
        else (st2, [TraceEvent.cycleStart st.errors st.page])
      | (CycleIn.err eo) :: rest =>
        let st1 :=
          match eo with
          | some e => pushItems st (extractItemsFromSnapshot sch pageUrl st e)
          | none => st
        let st2 := { st1 with errors := st1.errors + 1 }
        if cfg.retryAttempts.getD 3 ≤ st2.errors then
          (st2, [TraceEvent.cycleStart st.errors st.page])
        else
          let res := scrapingLoop sch cfg pageUrl rest st2
          (res.1, TraceEvent.cycleStart st.errors st.page ::
            TraceEvent.waited (cfg.retryDelay.getD 1000) :: res.2)
    else (st, [])

/-- `ScrapingEngine.initializeState`: one page, no items, no errors. -/
def initialState : EngineState := { items := [], page := 1, errors := 0 }

/-- Number of cycles begun in a trace. -/
def countCycles (tr : List TraceEvent) : Nat :=
  (tr.filter
    (fun e => match e with | TraceEvent.cycleStart _ _ => true | _ => false)).length

/-! PageSnapshot (extractor.ts).  The DOM visible to the analyzers is
modelled as a tree of elements with a tag and an integer bounding box;
per-frame analyzer evaluation receives the frame-local elements directly
(`document.querySelectorAll` is the environment). -/

/-- A rendered DOM element: tag name, bounding-box width/height, and
children in document order. -/
inductive DomElem where
  | mk (tag : String) (w : Nat) (h : Nat) (children : List DomElem)
deriving Repr

/-- Tag name of an element. -/
def DomElem.tag : DomElem → String
  | .mk t _ _ _ => t

/-- Bounding-box width. -/
def DomElem.w : DomElem → Nat
  | .mk _ w _ _ => w

/-- Bounding-box height. -/
def DomElem.h : DomElem → Nat
  | .mk _ _ h _ => h

/-- Direct children in document order. -/
def DomElem.children : DomElem → List DomElem
  | .mk _ _ _ cs => cs

/-- Bounding-box area (`r.width * r.height`). -/
def DomElem.area (e : DomElem) : Nat := e.w * e.h

/-- The structural signature `getListBlocks` groups siblings by:
`JSON.stringify({k: childCount, tags: first 6 child tags})`, modelled as
the pair itself. -/
def signature (e : DomElem) : Nat × List String :=
  (e.children.length, (e.children.take 6).map DomElem.tag)

/-- A detected list block: the first member of a repeated sibling group
and the group size. -/
structure ListBlockM where
  root : DomElem
  itemCount : Nat
deriving Repr

/-- Add an element to the sibling group of its signature, preserving
first-occurrence group order and within-group encounter order
(JavaScript `Map` insertion-order semantics). -/
def addToGroup (sig : Nat × List String) (k : DomElem) :
    List ((Nat × List String) × List DomElem) →
    List ((Nat × List String) × List DomElem)
  | [] => [(sig, [k])]
  | (s, arr) :: t =>
    if s = sig then (s, arr ++ [k]) :: t else (s, arr) :: addToGroup sig k t

/-- Group the direct children of a container by structural signature. -/
def groupKids (kids : List DomElem) :
    List ((Nat × List String) × List DomElem) :=
  kids.foldl (fun g k => addToGroup (signature k) k g) []

/-- Stable descending insertion: keep walking past strictly
higher-scoring earlier elements, so equal scores preserve original
order. -/
def insertDesc {α : Type} (s : α → Nat) (x : α) : List α → List α
  | [] => [x]
  | y :: ys => if s x < s y then y :: insertDesc s x ys else x :: y :: ys

/-- Stable descending sort by an integer score, the behaviour of the
(spec-mandated stable) JavaScript `Array.prototype.sort` with comparator
`(a, b) => score(b) - score(a)`. -/
def sortDesc {α : Type} (s : α → Nat) (l : List α) : List α :=
  l.foldr (insertDesc s) []

/-- `PageSnapshot.getListBlocks` for one frame, given the containers
matched by `main, .content, body`: group each container's children by
signature, emit groups of at least 8 whose first member's area is at
least the 200-square-pixel floor, sort by item count (descending,
stable) and keep the top `maxLists`. -/
def getListBlocks (containers : List DomElem) (maxLists : Nat) :
    List ListBlockM :=
  (sortDesc (fun lb => lb.itemCount)
    (containers.flatMap (fun root =>
      (groupKids root.children).filterMap (fun g =>
        if 8 ≤ g.2.length then
          match g.2 with
          | first :: _ =>
            if first.area < 200 then none
            else some ⟨first, g.2.length⟩
          | [] => none
        else none)))).take maxLists

/-! Pagination candidates (`PageSnapshot.getPaginationCandidates` and
`PageSnapshot.rankPagination`). -/

/-- One step of collapsing whitespace runs to single spaces
(`replace(/\s+/g, ' ')`), as a right fold. -/
def collapseStep (c : Char) (acc : List Char) : List Char :=
  if isJsWhitespace c then
    match acc with
    | ' ' :: _ => acc
    | _ => ' ' :: acc
  else c :: acc

/-- The `clip` helper of the extractor: collapse whitespace, trim, take
`n` characters. -/
def clip (s : String) (n : Nat) : String :=
  String.mk ((trimStr (String.mk (s.data.foldr collapseStep []))).data.take n)

/-- Substring occurrence test. -/
def containsSub (pat : List Char) (l : List Char) : Bool :=
  (findSubIdx pat l).isSome

/-- The next-like text test `/(next|older|more|›|»)/i`. -/
def isNextText (t : String) : Bool :=
  containsSub "next".data (lowerStr t.data)
    || containsSub "older".data (lowerStr t.data)
    || containsSub "more".data (lowerStr t.data)
    || containsSub "›".data t.data
    || containsSub "»".data t.data

/-- Match one alternative of `(page|p|offset|start)=\d+` at the current
position, case-insensitively. -/
def keyEq (k : String) (l : List Char) : Bool :=
  List.isPrefixOf k.data (lowerStr (l.take k.data.length))
    && (match l.drop k.data.length with
        | '=' :: d :: _ => d.isDigit
        | _ => false)

/-- Match any of the page-parameter keywords at the current position. -/
def paramKeyAt (l : List Char) : Bool :=
  keyEq "page" l || keyEq "p" l || keyEq "offset" l || keyEq "start" l

/-- Scan for `[?&](page|p|offset|start)=\d+` anywhere in the string. -/
def pageParamScan : List Char → Bool
  | [] => false
  | c :: rest => ((c = '?' || c = '&') && paramKeyAt rest) || pageParamScan rest

/-- The `/([?&](page|p|offset|start)=\d+)/i` test on the raw `href`
attribute. -/
def hasPageParam (href : String) : Bool := pageParamScan href.data

/-- An anchor as the pagination scanner sees it: generated selector,
`rel` attribute, visible text, raw `href` attribute, absolute `href`
property, and vertical geometry. -/
structure AnchorM where
  selector : String
  rel : String := ""
  text : String := ""
  hrefAttr : String := ""
  hrefAbs : String := ""
  y : Int := 0
  h : Int := 0
deriving DecidableEq, Repr

/-- A pagination candidate; the source attaches `_score` and strips it
from the emitted `NodeRef`, the model keeps it alongside. -/
structure PagCand where
  selector : String
  name : String
  href : String
  score : Nat
deriving DecidableEq, Repr

/-- `PageSnapshot.getPaginationCandidates` for one frame (scored form):
an anchor qualifies by `rel=next`, next-like text, or a page/offset/start
query parameter; its score is the weighted sum rel (+3), text (+2),
query parameter (+2), bottom edge below 60% of the viewport (+1); the
candidates are sorted by score (stable) and the top 4 kept.  The viewport
test `(y + h) > innerHeight * 0.6` is modelled over integers as
`5 * (y + h) > 3 * innerHeight`. -/
def scorePagAnchors (innerH : Int) (anchors : List AnchorM) : List PagCand :=
  anchors.filterMap (fun a =>
    let relLower := String.mk (lowerStr a.rel.data)
    let nextText := isNextText a.text
    let pageParam := hasPageParam a.hrefAttr
    if relLower = "next" || nextText || pageParam then
      some { selector := a.selector
             name := clip a.text 80
             href := a.hrefAbs
             score :=
               (if relLower = "next" then 3 else 0)
                 + (if nextText then 2 else 0)
                 + (if pageParam then 2 else 0)
                 + (if 5 * (a.y + a.h) > 3 * innerH then 1 else 0) }
    else none)

/-- The per-frame result: scored candidates sorted by score (stable) and
truncated to the top 4. -/
def getPaginationCandidatesScored (innerH : Int) (anchors : List AnchorM) :
    List PagCand :=
  (sortDesc (fun c => c.score) (scorePagAnchors innerH anchors)).take 4

/-- Order-preserving first-occurrence deduplication by a string key. -/
def dedupeByKey {α : Type} (key : α → String) : List String → List α → List α
  | _, [] => []
  | seen, x :: xs =>
    if seen.contains (key x) then dedupeByKey key seen xs
    else x :: dedupeByKey key (key x :: seen) xs

/-- The dedup key of `rankPagination`:
`(href || '') + '|' + selector + '|' + frameId`. -/
def pagKey (fc : String × PagCand) : String :=
  fc.2.href ++ "|" ++ fc.2.selector ++ "|" ++ fc.1

/-- All per-frame scored candidates, tagged with their frame id and
concatenated in frame-collection order. -/
def allPagCandidates (frames : List (String × Int × List AnchorM)) :
    List (String × PagCand) :=
  frames.flatMap (fun f =>
    (getPaginationCandidatesScored f.2.1 f.2.2).map (fun c => (f.1, c)))

/-- The cross-frame pagination pipeline of `PageSnapshot.build`: per-frame
scored candidates tagged with their frame id, concatenated in frame
order, deduplicated by `(href, selector, frameId)` (`rankPagination`),
and the first two kept. -/
def paginationPipeline (frames : List (String × Int × List AnchorM)) :
    List (String × PagCand) :=
  (dedupeByKey pagKey [] (allPagCandidates frames)).take 2

/-! Snapshot assembly (`PageSnapshot.build`): `refId` hashing, `refMap`
registration, and the size caps of the compact snapshot. -/

/-- An analyzer-produced element reference before registration. -/
structure RawRef where
  selector : String
  href : Option String := none
  name : Option String := none
deriving DecidableEq, Repr

/-- A registered `NodeRef` (selector, frame and the derived `refId`). -/
structure NodeRefM where
  refId : String
  frameId : String
  selector : String
  href : Option String
  name : Option String
deriving DecidableEq, Repr

/-- One step of the 31-based string hash
`hash = (hash * 31 + charCodeAt(i)) | 0` (signed 32-bit wrap). -/
def hashStep (h : Int) (c : Char) : Int :=
  let z := (h * 31 + (c.toNat : Int)) % 4294967296
  if z < 2147483648 then z else z - 4294967296

/-- The bounded string hash of `makeRefId`. -/
def hashString (s : String) : Int := s.data.foldl hashStep 0

/-- Base-36 digit (`0-9a-z`). -/
def digitChar36 (n : Nat) : Char :=
  if n < 10 then Char.ofNat (48 + n) else Char.ofNat (87 + n)

/-- `Number.prototype.toString(36)` for naturals. -/
def toBase36Aux : Nat → Nat → List Char
  | 0, n => [digitChar36 n]
  | Nat.succ fuel, n =>
    if n < 36 then [digitChar36 n]
    else toBase36Aux fuel (n / 36) ++ [digitChar36 (n % 36)]

/-- `Number.prototype.toString(36)` for naturals, with the value itself as
recursion fuel (each division by 36 strictly shrinks a value of at least
36, so `n` steps always suffice). -/
def toBase36 (n : Nat) : List Char := toBase36Aux n n

/-- `PageSnapshot.makeRefId`: `r{frameId}-{base36(abs(hash(base)))}` where
`base = frameId|selector|href|name`. -/
def makeRefId (frameId selector : String) (href name : Option String) :
    String :=
  let base := frameId ++ "|" ++ selector ++ "|" ++ jsOrEmpty href
    ++ "|" ++ jsOrEmpty name
  "r" ++ frameId ++ "-" ++ String.mk (toBase36 (hashString base).natAbs)

/-- The `addRef` registration of `PageSnapshot.build`, minus the map
write: the returned `NodeRef` is a pure function of the raw reference
and the frame id. -/
def nodeRefOf (frameId : String) (r : RawRef) : NodeRefM :=
  { refId := makeRefId frameId r.selector r.href r.name
    frameId := frameId
    selector := r.selector
    href := r.href
    name := r.name }

/-- A detected list block as emitted by one frame's analyzer. -/
structure RawListBlock where
  root : RawRef
  itemCount : Nat
deriving DecidableEq, Repr

/-- A form field as emitted by one frame's analyzer. -/
structure RawFormField where
  label : Option String := none
  input : RawRef
deriving DecidableEq, Repr

/-- A form block as emitted by one frame's analyzer. -/
structure RawForm where
  form : RawRef
  fields : List RawFormField := []
  submit : Option RawRef := none
deriving DecidableEq, Repr

/-- The per-frame analyzer outputs `PageSnapshot.build` merges. -/
structure FrameData where
  frameId : String
  headings : List String := []
  controls : List RawRef := []
  listBlocks : List RawListBlock := []
  pagination : List RawRef := []
  forms : List RawForm := []
deriving DecidableEq, Repr

/-- A registered list block. -/
structure ListBlockRef where
  root : NodeRefM
  itemCount : Nat
deriving DecidableEq, Repr

/-- A registered form field. -/
structure FormFieldRef where
  label : Option String
  input : NodeRefM
deriving DecidableEq, Repr

/-- A registered form block (`submit` omitted entirely when absent). -/
structure FormRef where
  form : NodeRefM
  fields : List FormFieldRef
  submit : Option NodeRefM
deriving DecidableEq, Repr

/-- The raw references a form registers, in registration order (form,
fields, submit). -/
def frameFormRefs (f : RawForm) : List RawRef :=
  f.form :: (f.fields.map (fun ff => ff.input) ++ f.submit.toList)

/-- Every `NodeRef` one frame registers into the `refMap`, in
registration order (controls, list roots, pagination, forms). -/
def registeredOfFrame (fd : FrameData) : List NodeRefM :=
  (fd.controls ++ fd.listBlocks.map (fun lb => lb.root) ++ fd.pagination
    ++ fd.forms.flatMap frameFormRefs).map (nodeRefOf fd.frameId)

/-- Every registered `NodeRef` of a snapshot, frames in collection
order. -/
def registeredAll (frames : List FrameData) : List NodeRefM :=
  frames.flatMap registeredOfFrame

/-- The `refMap` after all registrations, as a most-recent-write-first
association list: `refMap[id] = {selector, frameId}`, later writes with
the same `refId` shadowing earlier ones. -/
def refMapOf (frames : List FrameData) : List (String × (String × String)) :=
  ((registeredAll frames).map
    (fun nr => (nr.refId, (nr.selector, nr.frameId)))).reverse

/-- The extractor options (`ExtractorOptions.limits`). -/
structure OptionsM where
  maxControls : Option Nat := none
  maxLists : Option Nat := none
  maxForms : Option Nat := none
  maxFormFields : Option Nat := none
deriving DecidableEq, Repr

/-- Resolved limits (`{...DEFAULT_LIMITS, ...opts.limits}`). -/
structure LimitsM where
  maxControls : Nat
  maxLists : Nat
  maxForms : Nat
  maxFormFields : Nat
deriving DecidableEq, Repr

/-- Merge the defaults `{maxControls: 30, maxLists: 2, maxForms: 3,
maxFormFields: 12}` with the provided options. -/
def resolveLimits (opts : OptionsM) : LimitsM :=
  { maxControls := opts.maxControls.getD 30
    maxLists := opts.maxLists.getD 2
    maxForms := opts.maxForms.getD 3
    maxFormFields := opts.maxFormFields.getD 12 }

/-- The size-capped compact snapshot (the capped collections of
`D2SnapCompact`; `url`, `title` and the density hints carry no cap). -/
structure CompactM where
  headings : List String
  lists : List ListBlockRef
  controls : List NodeRefM
  pagination : List NodeRefM
  forms : List FormRef
deriving DecidableEq, Repr

/-- `PageSnapshot.rankPagination` at the `NodeRef` level: first-occurrence
dedup by `(href || '') + '|' + selector + '|' + frameId`. -/
def rankPagination (cands : List NodeRefM) : List NodeRefM :=
  dedupeByKey
    (fun c => jsOrEmpty c.href ++ "|" ++ c.selector ++ "|" ++ c.frameId)
    [] cands

/-- `PageSnapshot.build`: merge the per-frame analyzer outputs,
registering every emitted `NodeRef`, then apply the size caps
(headings ≤ 6 after dedup, lists ≤ maxLists, controls ≤ maxControls,
pagination ranked and ≤ 2, forms ≤ maxForms).  Returns the compact
snapshot and the final `refMap`. -/
def build (frames : List FrameData) (opts : OptionsM) :
    CompactM × List (String × (String × String)) :=
  let limits := resolveLimits opts
  let compact : CompactM :=
    { headings :=
        (dedupeByKey (fun s => s) [] (frames.flatMap (fun fd => fd.headings))).take 6
      lists :=
        (frames.flatMap (fun fd => fd.listBlocks.map
          (fun lb => ⟨nodeRefOf fd.frameId lb.root, lb.itemCount⟩))).take
          limits.maxLists
      controls :=
        (frames.flatMap (fun fd =>
          fd.controls.map (nodeRefOf fd.frameId))).take limits.maxControls
      pagination :=
        (rankPagination (frames.flatMap (fun fd =>
          fd.pagination.map (nodeRefOf fd.frameId)))).take 2
      forms :=
        (frames.flatMap (fun fd => fd.forms.map
          (fun f => ⟨nodeRefOf fd.frameId f.form,
            f.fields.map (fun ff => ⟨ff.label, nodeRefOf fd.frameId ff.input⟩),
            f.submit.map (nodeRefOf fd.frameId)⟩))).take limits.maxForms }
  (compact, refMapOf frames)

/-- The registered references a form block exposes. -/
def formRefsOf (f : FormRef) : List NodeRefM :=
  f.form :: (f.fields.map (fun ff => ff.input) ++ f.submit.toList)

/-- Every `NodeRef` placed into the compact summary: controls, list
roots, pagination candidates, and form/field/submit references. -/
def summarizedRefs (c : CompactM) : List NodeRefM :=
  c.controls ++ c.lists.map (fun lb => lb.root) ++ c.pagination
    ++ c.forms.flatMap formRefsOf

/-! General lemmas about the sorting, deduplication and truncation
combinators shared by the analyzers. -/

theorem length_take_le {α : Type} (n : Nat) (l : List α) :
    (l.take n).length ≤ n := by
  rw [List.length_take]
  exact Nat.min_le_left _ _

theorem mem_insertDesc {α : Type} {s : α → Nat} {a x : α} :
    ∀ {l : List α}, x ∈ insertDesc s a l ↔ x = a ∨ x ∈ l := by
  intro l
  induction l with
  | nil => simp [insertDesc]
  | cons y ys ih =>
    by_cases hy : s a < s y
    · simp only [insertDesc, if_pos hy, List.mem_cons, ih]
      tauto
    · simp only [insertDesc, if_neg hy, List.mem_cons]

theorem mem_sortDesc {α : Type} {s : α → Nat} {x : α} :
    ∀ {l : List α}, x ∈ sortDesc s l ↔ x ∈ l := by
  intro l
  induction l with
  | nil => simp [sortDesc]
  | cons y ys ih =>
    show x ∈ insertDesc s y (sortDesc s ys) ↔ _
    rw [mem_insertDesc, ih]
    simp

theorem pairwise_insertDesc {α : Type} {s : α → Nat} {a : α} :
    ∀ {l : List α}, List.Pairwise (fun u v => s v ≤ s u) l →
    List.Pairwise (fun u v => s v ≤ s u) (insertDesc s a l) := by
  intro l
  induction l with
  | nil => intro _; simp [insertDesc]
  | cons y ys ih =>
    intro h
    obtain ⟨hy, hys⟩ := List.pairwise_cons.mp h
    by_cases hlt : s a < s y
    · rw [insertDesc, if_pos hlt]
      refine List.pairwise_cons.mpr ⟨?_, ih hys⟩
      intro z hz
      rcases mem_insertDesc.mp hz with hz | hz
      · subst hz; omega
      · exact hy z hz
    · rw [insertDesc, if_neg hlt]
      refine List.pairwise_cons.mpr ⟨?_, h⟩
      intro z hz
      rcases List.mem_cons.mp hz with hz | hz
      · subst hz; omega
      · have := hy z hz; omega

theorem sortDesc_sorted {α : Type} (s : α → Nat) :
    ∀ (l : List α), List.Pairwise (fun u v => s v ≤ s u) (sortDesc s l) := by
  intro l
  induction l with
  | nil => simp [sortDesc]
  | cons y ys ih => exact pairwise_insertDesc ih

theorem filter_insertDesc {α : Type} (s : α → Nat) (k : Nat) (a : α) :
    ∀ (l : List α), List.Pairwise (fun u v => s v ≤ s u) l →
    (insertDesc s a l).filter (fun x => s x == k)
      = if s a == k then a :: l.filter (fun x => s x == k)
        else l.filter (fun x => s x == k) := by
  intro l
  induction l with
  | nil =>
    intro _
    by_cases hk : s a = k <;> simp [insertDesc, hk]
  | cons y ys ih =>
    intro hpw
    obtain ⟨hy, hys⟩ := List.pairwise_cons.mp hpw
    have hrec := ih hys
    by_cases hlt : s a < s y
    · rw [insertDesc, if_pos hlt, List.filter_cons]
      by_cases hyk : s y = k
      · have hak : ¬ (s a = k) := by omega
        rw [if_pos (by simp [hyk]), hrec, if_neg (by simp [hak])]
        rw [if_neg (by simp [hak]), List.filter_cons, if_pos (by simp [hyk])]
      · rw [if_neg (by simp [hyk]), hrec]
        by_cases hak : s a = k
        · rw [if_pos (by simp [hak]), if_pos (by simp [hak])]
          rw [List.filter_cons, if_neg (by simp [hyk])]
        · rw [if_neg (by simp [hak]), if_neg (by simp [hak])]
          rw [List.filter_cons, if_neg (by simp [hyk])]
    · rw [insertDesc, if_neg hlt, List.filter_cons]

theorem filter_sortDesc {α : Type} (s : α → Nat) (k : Nat) :
    ∀ (l : List α),
    (sortDesc s l).filter (fun x => s x == k)
      = l.filter (fun x => s x == k) := by
  intro l
  induction l with
  | nil => rfl
  | cons y ys ih =>
    show (insertDesc s y (sortDesc s ys)).filter _ = _
    rw [filter_insertDesc s k y (sortDesc s ys) (sortDesc_sorted s ys), ih]
    by_cases hyk : s y == k
    · rw [if_pos hyk, List.filter_cons, if_pos (by simp [hyk])]
    · rw [if_neg (by simp_all), List.filter_cons, if_neg (by simp_all)]

theorem dedupeByKey_sublist {α : Type} (key : α → String) :
    ∀ (seen : List String) (l : List α),
    (dedupeByKey key seen l).Sublist l := by
  intro seen l
  induction l generalizing seen with
  | nil => simp [dedupeByKey]
  | cons x xs ih =>
    rw [dedupeByKey]
    by_cases hx : seen.contains (key x)
    · rw [if_pos hx]
      exact (ih seen).cons x
    · rw [if_neg hx]
      exact (ih (key x :: seen)).cons₂ x

theorem mem_dedupeByKey {α : Type} {key : α → String} {seen : List String}
    {l : List α} {x : α} (h : x ∈ dedupeByKey key seen l) : x ∈ l :=
  (dedupeByKey_sublist key seen l).mem h

/-! Lemmas for the list detector, the snapshot caps and the reference
map. -/

theorem getListBlocks_mem {containers : List DomElem} {maxLists : Nat}
    {lb : ListBlockM} (h : lb ∈ getListBlocks containers maxLists) :
    8 ≤ lb.itemCount ∧ 200 ≤ lb.root.area := by
  unfold getListBlocks at h
  have h1 := (List.take_sublist _ _).subset h
  have h2 := mem_sortDesc.mp h1
  obtain ⟨root, _, h3⟩ := List.mem_flatMap.mp h2
  obtain ⟨g, _, heq⟩ := List.mem_filterMap.mp h3
  split at heq
  · next hlen =>
    split at heq
    · next first tail =>
      split at heq
      · simp at heq
      · next harea =>
        obtain rfl := Option.some.inj heq
        exact ⟨hlen, by simp [ListBlockM.root]; omega⟩
    · simp at heq
  · simp at heq

theorem build_headings_le (frames : List FrameData) (opts : OptionsM) :
    (build frames opts).1.headings.length ≤ 6 :=
  length_take_le _ _

theorem build_lists_le (frames : List FrameData) (opts : OptionsM) :
    (build frames opts).1.lists.length ≤ (resolveLimits opts).maxLists :=
  length_take_le _ _

theorem build_controls_le (frames : List FrameData) (opts : OptionsM) :
    (build frames opts).1.controls.length ≤ (resolveLimits opts).maxControls :=
  length_take_le _ _

theorem build_pagination_le (frames : List FrameData) (opts : OptionsM) :
    (build frames opts).1.pagination.length ≤ 2 :=
  length_take_le _ _

theorem build_forms_le (frames : List FrameData) (opts : OptionsM) :
    (build frames opts).1.forms.length ≤ (resolveLimits opts).maxForms :=
  length_take_le _ _

theorem lookup_mem {β : Type} {k : String} {v : β} :
    ∀ {l : List (String × β)}, List.lookup k l = some v → (k, v) ∈ l := by
  intro l
  induction l with
  | nil => intro h; simp [List.lookup] at h
  | cons p t ih =>
    intro h
    obtain ⟨a, b⟩ := p
    rw [List.lookup] at h
    cases hk : (k == a) with
    | true =>
      rw [hk] at h
      obtain rfl := Option.some.inj h
      have hak : k = a := by simpa using hk
      subst hak
      simp
    | false =>
      rw [hk] at h
      simp [ih h]

theorem lookup_isSome_of_key {β : Type} {k : String} :
    ∀ {l : List (String × β)}, (∃ p ∈ l, p.1 = k) →
    ∃ v, List.lookup k l = some v := by
  intro l
  induction l with
  | nil => intro h; simp at h
  | cons q t ih =>
    intro h
    obtain ⟨a, b⟩ := q
    rw [List.lookup]
    cases hk : (k == a) with
    | true => exact ⟨b, rfl⟩
    | false =>
      obtain ⟨p, hp, hpk⟩ := h
      rcases List.mem_cons.mp hp with hp1 | hp1
      · subst hp1
        simp at hpk
        subst hpk
        simp at hk
      · exact ih ⟨p, hp1, hpk⟩

theorem reg_of_control {frames : List FrameData} {fd : FrameData}
    {r : RawRef} (hfd : fd ∈ frames) (hr : r ∈ fd.controls) :
    nodeRefOf fd.frameId r ∈ registeredAll frames := by
  refine List.mem_flatMap.mpr ⟨fd, hfd, ?_⟩
  unfold registeredOfFrame
  exact List.mem_map_of_mem _ (by simp [hr])

theorem reg_of_listRoot {frames : List FrameData} {fd : FrameData}
    {lb : RawListBlock} (hfd : fd ∈ frames) (hr : lb ∈ fd.listBlocks) :
    nodeRefOf fd.frameId lb.root ∈ registeredAll frames := by
  refine List.mem_flatMap.mpr ⟨fd, hfd, ?_⟩
  unfold registeredOfFrame
  refine List.mem_map_of_mem _ ?_
  simp only [List.mem_append]
  exact .inl (.inl (.inr (List.mem_map_of_mem _ hr)))

theorem reg_of_pagination {frames : List FrameData} {fd : FrameData}
    {r : RawRef} (hfd : fd ∈ frames) (hr : r ∈ fd.pagination) :
    nodeRefOf fd.frameId r ∈ registeredAll frames := by
  refine List.mem_flatMap.mpr ⟨fd, hfd, ?_⟩
  unfold registeredOfFrame
  refine List.mem_map_of_mem _ ?_
  simp only [List.mem_append]
  exact .inl (.inr hr)

theorem reg_of_formRef {frames : List FrameData} {fd : FrameData}
    {f : RawForm} {r : RawRef} (hfd : fd ∈ frames) (hf : f ∈ fd.forms)
    (hr : r ∈ frameFormRefs f) :
    nodeRefOf fd.frameId r ∈ registeredAll frames := by
  refine List.mem_flatMap.mpr ⟨fd, hfd, ?_⟩
  unfold registeredOfFrame
  refine List.mem_map_of_mem _ ?_
  simp only [List.mem_append]
  exact .inr (List.mem_flatMap.mpr ⟨f, hf, hr⟩)

theorem formRefsOf_built (fid : String) (f : RawForm) :
    formRefsOf
      ⟨nodeRefOf fid f.form,
        f.fields.map (fun ff => ⟨ff.label, nodeRefOf fid ff.input⟩),
        f.submit.map (nodeRefOf fid)⟩
      = (frameFormRefs f).map (nodeRefOf fid) := by
  unfold formRefsOf frameFormRefs
  simp only [List.map_cons, List.map_append, List.map_map]
  congr 2
  cases f.submit <;> rfl

theorem mem_registered_of_summarized {frames : List FrameData}
    {opts : OptionsM} {nr : NodeRefM}
    (h : nr ∈ summarizedRefs (build frames opts).1) :
    nr ∈ registeredAll frames := by
  unfold summarizedRefs at h
  simp only [List.mem_append] at h
  rcases h with ((hc | hl) | hp) | hf
  · have h1 := (List.take_sublist _ _).subset hc
    obtain ⟨fd, hfd, h2⟩ := List.mem_flatMap.mp h1
    obtain ⟨r, hr, rfl⟩ := List.mem_map.mp h2
    exact reg_of_control hfd hr
  · obtain ⟨lbr, hlbr, rfl⟩ := List.mem_map.mp hl
    have h1 := (List.take_sublist _ _).subset hlbr
    obtain ⟨fd, hfd, h2⟩ := List.mem_flatMap.mp h1
    obtain ⟨lb, hlb, rfl⟩ := List.mem_map.mp h2
    exact reg_of_listRoot hfd hlb
  · have h1 := (List.take_sublist _ _).subset hp
    have h2 := mem_dedupeByKey h1
    obtain ⟨fd, hfd, h3⟩ := List.mem_flatMap.mp h2
    obtain ⟨r, hr, rfl⟩ := List.mem_map.mp h3
    exact reg_of_pagination hfd hr
  · obtain ⟨fr, hfr, hnr⟩ := List.mem_flatMap.mp hf
    have h1 := (List.take_sublist _ _).subset hfr
    obtain ⟨fd, hfd, h2⟩ := List.mem_flatMap.mp h1
    obtain ⟨f, hfm, rfl⟩ := List.mem_map.mp h2
    rw [formRefsOf_built] at hnr
    obtain ⟨r, hr, rfl⟩ := List.mem_map.mp hnr
    exact reg_of_formRef hfd hfm hr

theorem refMap_lookup_inv {frames : List FrameData} {k : String}
    {v : String × String}
    (h : List.lookup k (refMapOf frames) = some v) :
    ∃ c ∈ registeredAll frames, c.refId = k ∧ v = (c.selector, c.frameId) := by
  have h1 := lookup_mem h
  unfold refMapOf at h1
  rw [List.mem_reverse] at h1
  obtain ⟨c, hc, heq⟩ := List.mem_map.mp h1
  refine ⟨c, hc, ?_, ?_⟩
  · exact (congrArg Prod.fst heq)
  · exact (congrArg Prod.snd heq).symm

theorem refMap_lookup_of_registered {frames : List FrameData}
    {nr : NodeRefM} (h : nr ∈ registeredAll frames) :
    ∃ v, List.lookup nr.refId (refMapOf frames) = some v := by
  refine lookup_isSome_of_key ⟨(nr.refId, (nr.selector, nr.frameId)), ?_, rfl⟩
  unfold refMapOf
  rw [List.mem_reverse]
  exact List.mem_map_of_mem _ h

/-! Lemmas for the capacity bound of the extraction pipeline and for the
loop traces. -/

theorem removeCommonImages_length (l : List Rec) :
    (removeCommonImages l).length = l.length := by
  unfold removeCommonImages
  cases firstCommonImage l <;> simp

theorem cleanAndDedupeResults_length (existing : List Rec)
    (results : List RawRec) (maxNeeded : Nat) (pageUrl : String) :
    (cleanAndDedupeResults existing results maxNeeded pageUrl).length
      ≤ maxNeeded := by
  unfold cleanAndDedupeResults
  rw [removeCommonImages_length]
  exact length_take_le _ _

theorem extractItemsFromSnapshot_length (sch : SchemaM) (pageUrl : String)
    (st : EngineState) (e : ExtractIn) :
    (extractItemsFromSnapshot sch pageUrl st e).length ≤ maxNeeded sch st := by
  unfold extractItemsFromSnapshot
  by_cases h0 : maxNeeded sch st = 0
  · simp [h0]
  · simp only [if_neg h0]
    split
    · exact cleanAndDedupeResults_length _ _ _ _
    · split
      · exact cleanAndDedupeResults_length _ _ _ _
      · exact cleanAndDedupeResults_length _ _ _ _

theorem extractItemsFromSnapshot_zero {sch : SchemaM} {pageUrl : String}
    {st : EngineState} (e : ExtractIn) (h : maxNeeded sch st = 0) :
    extractItemsFromSnapshot sch pageUrl st e = [] := by
  unfold extractItemsFromSnapshot
  simp [h]

theorem pushItems_le {sch : SchemaM} {m : Nat}
    (hm : sch.target.maxItems = some m) (pageUrl : String)
    {st : EngineState} (e : ExtractIn) (h : st.items.length ≤ m) :
    (pushItems st (extractItemsFromSnapshot sch pageUrl st e)).items.length
      ≤ m := by
  have hx := extractItemsFromSnapshot_length sch pageUrl st e
  have hn : maxNeeded sch st = m - st.items.length := by
    simp [maxNeeded, hm]
  rw [hn] at hx
  simp only [pushItems, List.length_append]
  omega

theorem runChildren_le {sch : SchemaM} {m : Nat}
    (hm : sch.target.maxItems = some m) (pageUrl : String) :
    ∀ (cs : List ExtractIn) (st : EngineState), st.items.length ≤ m →
    (runChildren sch pageUrl st cs).items.length ≤ m := by
  intro cs
  induction cs with
  | nil => intro st h; exact h
  | cons c cs ih =>
    intro st h
    rw [runChildren]
    by_cases hc : shouldContinue sch st
    · rw [if_pos hc]
      exact ih _ (pushItems_le hm pageUrl c h)
    · rw [if_neg hc]
      exact h

theorem scrapingLoop_items_le {sch : SchemaM} {cfg : ConfigM} {m : Nat}
    (hm : sch.target.maxItems = some m) (pageUrl : String) :
    ∀ (script : List CycleIn) (st : EngineState), st.items.length ≤ m →
    ((scrapingLoop sch cfg pageUrl script st).1).items.length ≤ m := by
  intro script
  induction script with
  | nil =>
    intro st h
    rw [scrapingLoop.eq_def]
    by_cases hc : shouldContinue sch st
    · rw [if_pos hc]; exact h
    · rw [if_neg hc]; exact h
  | cons c rest ih =>
    intro st h
    rw [scrapingLoop.eq_def]
    by_cases hc : shouldContinue sch st
    · rw [if_pos hc]
      cases c with
      | ok e cs adv =>
        have h1 := pushItems_le hm pageUrl e h
        by_cases hfl : sch.followLinks
        · simp only [hfl, if_pos]
          have h2 := runChildren_le hm pageUrl cs _ h1
          cases adv with
          | true => simpa using ih _ (by simpa using h2)
          | false => simpa using h2
        · simp only [hfl]
          simp only [Bool.false_eq_true, if_neg, not_false_eq_true]
          cases adv with
          | true => simpa using ih _ (by simpa using h1)
          | false => simpa using h1
      | err eo =>
        cases eo with
        | some e =>
          have h1 := pushItems_le hm pageUrl e h
          by_cases hstop :
              cfg.retryAttempts.getD 3
                ≤ ((pushItems st (extractItemsFromSnapshot sch pageUrl st e)).errors + 1)
          · simp only [hstop, if_pos]
            simpa using h1
          · simp only [if_neg hstop]
            simpa using ih _ (by simpa using h1)
        | none =>
          by_cases hstop : cfg.retryAttempts.getD 3 ≤ (st.errors + 1)
          · simp only [hstop, if_pos]
            simpa using h
          · simp only [if_neg hstop]
            simpa using ih _ (by simpa using h)
    · rw [if_neg hc]
      exact h

theorem runChildren_errors (sch : SchemaM) (pageUrl : String) :
    ∀ (cs : List ExtractIn) (st : EngineState),
    (runChildren sch pageUrl st cs).errors = st.errors := by
  intro cs
  induction cs with
  | nil => intro st; rfl
  | cons c cs ih =>
    intro st
    rw [runChildren]
    by_cases hc : shouldContinue sch st
    · rw [if_pos hc]
      rw [ih]
      rfl
    · rw [if_neg hc]

theorem runChildren_page (sch : SchemaM) (pageUrl : String) :
    ∀ (cs : List ExtractIn) (st : EngineState),
    (runChildren sch pageUrl st cs).page = st.page := by
  intro cs
  induction cs with
  | nil => intro st; rfl
  | cons c cs ih =>
    intro st
    rw [runChildren]
    by_cases hc : shouldContinue sch st
    · rw [if_pos hc]
      rw [ih]
      rfl
    · rw [if_neg hc]

theorem countCycles_nil : countCycles [] = 0 := rfl

theorem countCycles_cons_start (a b : Nat) (tr : List TraceEvent) :
    countCycles (TraceEvent.cycleStart a b :: tr) = countCycles tr + 1 := by
  simp [countCycles, List.filter_cons]

theorem countCycles_cons_waited (ms : Nat) (tr : List TraceEvent) :
    countCycles (TraceEvent.waited ms :: tr) = countCycles tr := by
  simp [countCycles, List.filter_cons]

theorem scrapingLoop_trace_spec (sch : SchemaM) (cfg : ConfigM)
    (pageUrl : String) :
    ∀ (script : List CycleIn) (st : EngineState),
    st.errors < cfg.retryAttempts.getD 3 →
    ∀ ev ∈ (scrapingLoop sch cfg pageUrl script st).2,
      (∀ errs p, ev = TraceEvent.cycleStart errs p →
        errs < cfg.retryAttempts.getD 3) ∧
      (∀ ms, ev = TraceEvent.waited ms → ms = cfg.retryDelay.getD 1000) := by
  intro script
  induction script with
  | nil =>
    intro st h ev hev
    rw [scrapingLoop.eq_def] at hev
    by_cases hc : shouldContinue sch st
    · rw [if_pos hc] at hev; simp at hev
    · rw [if_neg hc] at hev; simp at hev
  | cons c rest ih =>
    intro st h ev hev
    rw [scrapingLoop.eq_def] at hev
    by_cases hc : shouldContinue sch st
    · rw [if_pos hc] at hev
      cases c with
      | ok e cs adv =>
        simp only at hev
        cases adv with
        | true =>
          simp only [if_pos] at hev
          rcases List.mem_cons.mp hev with hev | hev
          · subst hev
            exact ⟨fun errs p hep => by
                obtain ⟨h1, h2⟩ := TraceEvent.cycleStart.inj hep
                omega,
              fun ms hms => by simp at hms⟩
          · have herr :
                (if sch.followLinks = true then
                  runChildren sch pageUrl
                    (pushItems st (extractItemsFromSnapshot sch pageUrl st e)) cs
                 else
                  pushItems st (extractItemsFromSnapshot sch pageUrl st e)).errors
                  = st.errors := by
              by_cases hfl : sch.followLinks
              · simp [hfl, runChildren_errors, pushItems]
              · simp [hfl, pushItems]
            refine ih _ ?_ ev hev
            simpa [herr] using h
        | false =>
          simp only [Bool.false_eq_true, if_neg, not_false_eq_true,
            List.mem_singleton] at hev
          subst hev
          exact ⟨fun errs p hep => by
              obtain ⟨h1, h2⟩ := TraceEvent.cycleStart.inj hep
              omega,
            fun ms hms => by simp at hms⟩
      | err eo =>
        simp only at hev
        by_cases hstop :
            cfg.retryAttempts.getD 3
              ≤ ((match eo with
                  | some e => pushItems st (extractItemsFromSnapshot sch pageUrl st e)
                  | none => st).errors + 1)
        · rw [if_pos hstop] at hev
          simp only [List.mem_singleton] at hev
          subst hev
          exact ⟨fun errs p hep => by
              obtain ⟨h1, h2⟩ := TraceEvent.cycleStart.inj hep
              omega,
            fun ms hms => by simp at hms⟩
        · rw [if_neg hstop] at hev
          have herr1 :
              (match eo with
                | some e => pushItems st (extractItemsFromSnapshot sch pageUrl st e)
                | none => st).errors = st.errors := by
            cases eo <;> simp [pushItems]
          rcases List.mem_cons.mp hev with hev | hev
          · subst hev
            exact ⟨fun errs p hep => by
                obtain ⟨h1, h2⟩ := TraceEvent.cycleStart.inj hep
                omega,
              fun ms hms => by simp at hms⟩
          · rcases List.mem_cons.mp hev with hev | hev
            · subst hev
              exact ⟨fun errs p hep => by simp at hep,
                fun ms hms => by
                  obtain h1 := TraceEvent.waited.inj hms
                  omega⟩
            · refine ih _ ?_ ev hev
              simp only
              rw [herr1] at hstop ⊢
              omega
    · rw [if_neg hc] at hev
      simp at hev

/-- A script whose cycles all complete (no thrown errors). -/
def isOkCycle : CycleIn → Bool
  | CycleIn.ok _ _ _ => true
  | CycleIn.err _ => false

theorem shouldContinue_page_lt {sch : SchemaM} {st : EngineState} {n : Nat}
    (hm : sch.target.maxPages = some n) (hn : n ≠ 0)
    (hc : shouldContinue sch st = true) : st.page < n := by
  simp only [shouldContinue, limitHit, hm, Bool.and_eq_true,
    Bool.not_eq_true'] at hc
  obtain ⟨h1, _⟩ := hc
  by_cases hle : n ≤ st.page
  · simp [hn, hle] at h1
  · omega

theorem scrapingLoop_cycles_le {sch : SchemaM} {cfg : ConfigM}
    {pageUrl : String} {n : Nat} (hm : sch.target.maxPages = some n)
    (hn : n ≠ 0) :
    ∀ (script : List CycleIn) (st : EngineState),
    (∀ c ∈ script, isOkCycle c = true) →
    countCycles (scrapingLoop sch cfg pageUrl script st).2 ≤ n - st.page := by
  intro script
  induction script with
  | nil =>
    intro st _
    rw [scrapingLoop.eq_def]
    by_cases hc : shouldContinue sch st
    · rw [if_pos hc]; simp [countCycles]
    · rw [if_neg hc]; simp [countCycles]
  | cons c rest ih =>
    intro st hok
    rw [scrapingLoop.eq_def]
    by_cases hc : shouldContinue sch st
    · rw [if_pos hc]
      have hlt := shouldContinue_page_lt hm hn hc
      cases c with
      | ok e cs adv =>
        simp only
        cases adv with
        | true =>
          simp only [if_pos]
          rw [countCycles_cons_start]
          have hpage :
              (if sch.followLinks = true then
                runChildren sch pageUrl
                  (pushItems st (extractItemsFromSnapshot sch pageUrl st e)) cs
               else
                pushItems st (extractItemsFromSnapshot sch pageUrl st e)).page
                = st.page := by
            by_cases hfl : sch.followLinks
            · simp [hfl, runChildren_page, pushItems]
            · simp [hfl, pushItems]
          have hokrest : ∀ cc ∈ rest, isOkCycle cc = true :=
            fun cc hcc => hok cc (by simp [hcc])
          refine Nat.le_trans (Nat.add_le_add_right (ih _ hokrest) 1) ?_
          simp only [hpage]
          omega
        | false =>
          simp only [Bool.false_eq_true, if_neg, not_false_eq_true]
          rw [countCycles_cons_start, countCycles_nil]
          omega
      | err eo =>
        exact absurd (hok (CycleIn.err eo) (List.mem_cons_self _ _))
          (by simp [isOkCycle])
    · rw [if_neg hc]
      simp [countCycles]

/-! Lemmas for the common-image removal. -/

/-- Number of records of a batch carrying a given image URL. -/
def imageCount (l : List Rec) (u : String) : Nat :=
  (l.filter (fun r => r.image == some u)).length

theorem lookup_bumpCount :
    ∀ (acc : List (String × Nat)) (i k : String),
    List.lookup k (bumpCount acc i)
      = if k = i then some ((List.lookup i acc).getD 0 + 1)
        else List.lookup k acc := by
  intro acc
  induction acc with
  | nil =>
    intro i k
    by_cases hk : k = i
    · subst hk
      simp [bumpCount, List.lookup]
    · have h1 : (k == i) = false := by simp [hk]
      simp [bumpCount, List.lookup, h1, hk]
  | cons q t ih =>
    intro i k
    obtain ⟨a, n⟩ := q
    by_cases hai : a = i
    · subst hai
      rw [bumpCount, if_pos rfl]
      by_cases hk : k = a
      · subst hk
        simp [List.lookup]
      · have h1 : (k == a) = false := by simp [hk]
        simp [List.lookup, h1, hk]
    · rw [bumpCount, if_neg hai]
      by_cases hk : k = a
      · subst hk
        have h1 : (k == k) = true := by simp
        have hki : ¬ (k = i) := fun he => hai he
        simp [List.lookup, h1, hki]
      · have h1 : (k == a) = false := by simp [hk]
        have h2 : (i == a) = false := by
          simp
          exact fun he => hai he.symm
        simp only [List.lookup, h1, h2]
        rw [ih]

theorem imageCount_foldl :
    ∀ (l : List Rec) (acc : List (String × Nat)) (k : String),
    (List.lookup k (l.foldl
      (fun acc r =>
        match r.image with | some i => bumpCount acc i | none => acc)
      acc)).getD 0
    = (List.lookup k acc).getD 0 + imageCount l k := by
  intro l
  induction l with
  | nil => intro acc k; simp [imageCount]
  | cons r t ih =>
    intro acc k
    rw [List.foldl_cons, ih]
    cases hi : r.image with
    | none =>
      simp only [hi]
      have : imageCount (r :: t) k = imageCount t k := by
        simp [imageCount, List.filter_cons, hi]
      omega
    | some i =>
      simp only [hi]
      rw [lookup_bumpCount]
      by_cases hk : k = i
      · subst hk
        rw [if_pos rfl]
        have : imageCount (r :: t) k = imageCount t k + 1 := by
          simp [imageCount, List.filter_cons, hi]
        simp only [Option.getD_some]
        omega
      · rw [if_neg hk]
        have : imageCount (r :: t) k = imageCount t k := by
          have hne : (r.image == some k) = false := by
            simp [hi]
            exact fun he => hk he.symm
          simp [imageCount, List.filter_cons, hne]
        omega

theorem mem_keys_bumpCount {k i : String} :
    ∀ {acc : List (String × Nat)},
    k ∈ (bumpCount acc i).map Prod.fst → k ∈ acc.map Prod.fst ∨ k = i := by
  intro acc
  induction acc with
  | nil =>
    intro h
    simp [bumpCount] at h
    exact .inr h
  | cons q t ih =>
    obtain ⟨a, n⟩ := q
    intro h
    by_cases hai : a = i
    · rw [bumpCount, if_pos hai] at h
      rw [List.map_cons] at h
      rcases List.mem_cons.mp h with h | h
      · exact .inl (by rw [List.map_cons]; exact List.mem_cons.mpr (.inl h))
      · exact .inl (by rw [List.map_cons]; exact List.mem_cons.mpr (.inr h))
    · rw [bumpCount, if_neg hai] at h
      rw [List.map_cons] at h
      rcases List.mem_cons.mp h with h | h
      · exact .inl (by rw [List.map_cons]; exact List.mem_cons.mpr (.inl h))
      · rcases ih h with h1 | h1
        · exact .inl (by rw [List.map_cons]; exact List.mem_cons.mpr (.inr h1))
        · exact .inr h1

theorem nodup_keys_bumpCount {i : String} :
    ∀ {acc : List (String × Nat)}, (acc.map Prod.fst).Nodup →
    ((bumpCount acc i).map Prod.fst).Nodup := by
  intro acc
  induction acc with
  | nil => intro _; simp [bumpCount]
  | cons q t ih =>
    obtain ⟨a, n⟩ := q
    intro h
    simp only [List.map_cons, List.nodup_cons] at h
    obtain ⟨ha, ht⟩ := h
    by_cases hai : a = i
    · rw [bumpCount, if_pos hai]
      simp only [List.map_cons, List.nodup_cons]
      exact ⟨ha, ht⟩
    · rw [bumpCount, if_neg hai]
      simp only [List.map_cons, List.nodup_cons]
      refine ⟨?_, ih ht⟩
      intro hmem
      rcases mem_keys_bumpCount hmem with h1 | h1
      · exact ha h1
      · exact hai h1

theorem nodup_keys_imageCounts (l : List Rec) :
    ((imageCounts l).map Prod.fst).Nodup := by
  suffices h : ∀ (acc : List (String × Nat)), (acc.map Prod.fst).Nodup →
      ((l.foldl
        (fun acc r =>
          match r.image with | some i => bumpCount acc i | none => acc)
        acc).map Prod.fst).Nodup by
    exact h [] (by simp)
  induction l with
  | nil => intro acc h; exact h
  | cons r t ih =>
    intro acc h
    rw [List.foldl_cons]
    refine ih _ ?_
    cases hi : r.image with
    | none => simpa using h
    | some i => exact nodup_keys_bumpCount h

theorem lookup_of_mem_nodup {β : Type} :
    ∀ {m : List (String × β)} {p : String × β},
    (m.map Prod.fst).Nodup → p ∈ m → List.lookup p.1 m = some p.2 := by
  intro m
  induction m with
  | nil => intro p _ hp; simp at hp
  | cons q t ih =>
    intro p h hp
    simp only [List.map_cons, List.nodup_cons] at h
    obtain ⟨hq, ht⟩ := h
    rcases List.mem_cons.mp hp with hp1 | hp1
    · subst hp1
      rw [List.lookup]
      have : (p.1 == p.1) = true := by simp
      rw [this]
    · have hne : p.1 ≠ q.1 := by
        intro he
        exact hq (he ▸ List.mem_map_of_mem Prod.fst hp1)
      rw [List.lookup]
      have : (p.1 == q.1) = false := by simp [hne]
      rw [this]
      exact ih ht hp1

theorem firstCommonImage_count {l : List Rec} {bad : String}
    (h : firstCommonImage l = some bad) : 5 ≤ imageCount l bad := by
  unfold firstCommonImage at h
  cases hf : (imageCounts l).find? (fun p => 5 ≤ p.2) with
  | none => rw [hf] at h; simp at h
  | some p =>
    rw [hf] at h
    simp at h
    have hcond := List.find?_some hf
    simp at hcond
    have hmem : p ∈ imageCounts l := List.mem_of_find?_eq_some hf
    have hval : List.lookup p.1 (imageCounts l) = some p.2 :=
      lookup_of_mem_nodup (nodup_keys_imageCounts l) hmem
    have hcount := imageCount_foldl l [] p.1
    unfold imageCounts at hval
    rw [hval] at hcount
    simp at hcount
    subst h
    omega

theorem removeCommonImages_not_bad {l : List Rec} {bad : String}
    (h : firstCommonImage l = some bad) :
    ∀ r ∈ removeCommonImages l, r.image ≠ some bad := by
  intro r hr
  unfold removeCommonImages at hr
  rw [h] at hr
  obtain ⟨r0, _, rfl⟩ := List.mem_map.mp hr
  by_cases hb : r0.image = some bad
  · simp [hb]
  · simp [hb]

theorem removeCommonImages_keep {l : List Rec} {r : Rec} (hr : r ∈ l)
    (hni : ∀ bad, firstCommonImage l = some bad → r.image ≠ some bad) :
    r ∈ removeCommonImages l := by
  unfold removeCommonImages
  cases hf : firstCommonImage l with
  | none => exact hr
  | some bad =>
    refine List.mem_map.mpr ⟨r, hr, ?_⟩
    rw [if_neg (hni bad hf)]

/-! Lemmas for the deduplication pass of `cleanAndDedupeResults` and the
run-level dedup invariant. -/

theorem stringContains_iff {l : List String} {s : String} :
    l.contains s = true ↔ s ∈ l := by
  induction l with
  | nil => simp
  | cons x xs ih => simp

theorem dedupePass_sublist (ex : List String) :
    ∀ (seen : List String) (rs : List Rec),
    (dedupePass ex seen rs).Sublist rs := by
  intro seen rs
  induction rs generalizing seen with
  | nil => simp [dedupePass]
  | cons r rs ih =>
    rw [dedupePass]
    by_cases h1 : keyOf r = ""
    · rw [if_pos h1]
      exact (ih seen).cons r
    · rw [if_neg h1]
      by_cases h2 : (match r.href with
          | some h => !(h = "") && ex.contains (canonicalForDedupe h)
          | none => false) = true
      · rw [if_pos h2]
        exact (ih seen).cons r
      · rw [if_neg h2]
        by_cases h3 : seen.contains (keyOf r) = true
        · rw [if_pos h3]
          exact (ih seen).cons r
        · rw [if_neg h3]
          exact (ih (keyOf r :: seen)).cons₂ r

theorem dedupePass_mem_spec (ex : List String) :
    ∀ (seen : List String) (rs : List Rec) (r : Rec),
    r ∈ dedupePass ex seen rs →
    keyOf r ∉ seen ∧
    (∀ h0, r.href = some h0 → h0 ≠ "" → canonicalForDedupe h0 ∉ ex) := by
  intro seen rs
  induction rs generalizing seen with
  | nil => intro r hr; simp [dedupePass] at hr
  | cons r0 rs ih =>
    intro r hr
    rw [dedupePass] at hr
    by_cases h1 : keyOf r0 = ""
    · rw [if_pos h1] at hr
      exact ih seen r hr
    · rw [if_neg h1] at hr
      by_cases h2 : (match r0.href with
          | some h => !(h = "") && ex.contains (canonicalForDedupe h)
          | none => false) = true
      · rw [if_pos h2] at hr
        exact ih seen r hr
      · rw [if_neg h2] at hr
        by_cases h3 : seen.contains (keyOf r0) = true
        · rw [if_pos h3] at hr
          exact ih seen r hr
        · rw [if_neg h3] at hr
          rcases List.mem_cons.mp hr with hr1 | hr1
          · subst hr1
            refine ⟨fun hmem => h3 (stringContains_iff.mpr hmem), ?_⟩
            intro h0 hh0 hne0 hcmem
            refine h2 ?_
            rw [hh0]
            simp [hne0, stringContains_iff]
            exact hcmem
          · obtain ⟨hseen, hex⟩ := ih (keyOf r0 :: seen) r hr1
            refine ⟨fun hmem => hseen (by simp [hmem]), hex⟩

theorem dedupePass_pairwise_key (ex : List String) :
    ∀ (seen : List String) (rs : List Rec),
    List.Pairwise (fun a b => keyOf a ≠ keyOf b) (dedupePass ex seen rs) := by
  intro seen rs
  induction rs generalizing seen with
  | nil => simp [dedupePass]
  | cons r0 rs ih =>
    rw [dedupePass]
    by_cases h1 : keyOf r0 = ""
    · rw [if_pos h1]; exact ih seen
    · rw [if_neg h1]
      by_cases h2 : (match r0.href with
          | some h => !(h = "") && ex.contains (canonicalForDedupe h)
          | none => false) = true
      · rw [if_pos h2]; exact ih seen
      · rw [if_neg h2]
        by_cases h3 : seen.contains (keyOf r0) = true
        · rw [if_pos h3]; exact ih seen
        · rw [if_neg h3]
          refine List.pairwise_cons.mpr ⟨?_, ih (keyOf r0 :: seen)⟩
          intro b hb
          have := (dedupePass_mem_spec ex (keyOf r0 :: seen) rs b hb).1
          intro he
          exact this (by simp [he])

theorem serializeURL_ne_nil (r : URLModel) : serializeURL r ≠ [] := by
  simp [serializeURL]

theorem string_mk_ne_empty {l : List Char} (h : l ≠ []) : String.mk l ≠ "" := by
  intro he
  have := congrArg String.data he
  simp at this
  exact h this

theorem toAbsoluteUrl_ne_empty {u : String} (h : u ≠ "") :
    toAbsoluteUrl u ≠ "" := by
  unfold toAbsoluteUrl
  cases hp : parseURL u.data with
  | none => exact h
  | some r => exact string_mk_ne_empty (serializeURL_ne_nil r)

theorem canonicalForDedupe_ne_empty {u : String} (h : u ≠ "") :
    canonicalForDedupe u ≠ "" := by
  unfold canonicalForDedupe canonicalCore
  cases hp : parseURL u.data with
  | none => exact h
  | some r => exact string_mk_ne_empty (serializeURL_ne_nil (cleanURL r))

theorem cleanRow_href_ne {raw : RawRec} {pageUrl : String} {h0 : String}
    (h : (cleanRow raw pageUrl).href = some h0) : h0 ≠ "" := by
  unfold cleanRow at h
  simp only at h
  cases hr : raw.href with
  | none => rw [hr] at h; simp at h
  | some hh =>
    rw [hr] at h
    have h' : (if hh = "" then (none : Option String)
        else some (toAbsoluteUrl hh)) = some h0 := h
    by_cases he : hh = ""
    · rw [if_pos he] at h'; simp at h'
    · rw [if_neg he] at h'
      obtain rfl := Option.some.inj h'
      exact toAbsoluteUrl_ne_empty he

theorem keyOf_of_href {r : Rec} {h0 : String} (hh : r.href = some h0)
    (hne : h0 ≠ "") : keyOf r = canonicalForDedupe h0 := by
  unfold keyOf
  rw [hh]
  show (if (if h0 = "" then "" else canonicalForDedupe h0) = ""
      then fallbackKey r
      else (if h0 = "" then "" else canonicalForDedupe h0))
    = canonicalForDedupe h0
  rw [if_neg hne]
  rw [if_neg (canonicalForDedupe_ne_empty hne)]

theorem keyOf_of_no_href {r : Rec} (hh : r.href = none) :
    keyOf r = fallbackKey r := by
  unfold keyOf
  rw [hh]
  simp

theorem mem_existingKeys {items : List Rec} {r : Rec} {h0 : String}
    (hr : r ∈ items) (hh : r.href = some h0) (hne : h0 ≠ "") :
    canonicalForDedupe h0 ∈ existingKeys items := by
  unfold existingKeys
  refine List.mem_filter.mpr ⟨?_, ?_⟩
  · refine List.mem_map.mpr ⟨r, hr, ?_⟩
    rw [hh]
    rfl
  · simp [canonicalForDedupe_ne_empty hne]

theorem cleanedRows_href_ne {results : List RawRec} {pageUrl : String}
    {r : Rec} (hr : r ∈ cleanedRows results pageUrl) :
    ∀ h0, r.href = some h0 → h0 ≠ "" := by
  intro h0 hh
  have h1 := List.mem_of_mem_filter hr
  obtain ⟨raw, _, rfl⟩ := List.mem_map.mp h1
  exact cleanRow_href_ne hh

theorem removeCommonImages_shape {l : List Rec} {r : Rec}
    (hr : r ∈ removeCommonImages l) :
    ∃ r0 ∈ l, r0.href = r.href ∧ r0.title = r.title ∧ r0.snippet = r.snippet := by
  unfold removeCommonImages at hr
  cases hf : firstCommonImage l with
  | none =>
    rw [hf] at hr
    exact ⟨r, hr, rfl, rfl, rfl⟩
  | some bad =>
    rw [hf] at hr
    obtain ⟨r0, hr0, rfl⟩ := List.mem_map.mp hr
    by_cases hb : r0.image = some bad
    · exact ⟨r0, hr0, by simp [hb], by simp [hb], by simp [hb]⟩
    · exact ⟨r0, hr0, by simp [hb], by simp [hb], by simp [hb]⟩

theorem cleanAndDedupeResults_mem_shape {existing : List Rec}
    {results : List RawRec} {n : Nat} {pageUrl : String} {r : Rec}
    (hr : r ∈ cleanAndDedupeResults existing results n pageUrl) :
    ∀ h0, r.href = some h0 →
      h0 ≠ "" ∧ canonicalForDedupe h0 ∉ existingKeys existing := by
  intro h0 hh
  unfold cleanAndDedupeResults at hr
  obtain ⟨r0, hr0, hhref, _, _⟩ := removeCommonImages_shape hr
  have h1 := (List.take_sublist _ _).subset hr0
  have h2 := (dedupePass_sublist (existingKeys existing) [] _).subset h1
  have hne : h0 ≠ "" := cleanedRows_href_ne h2 h0 (hhref.trans hh)
  refine ⟨hne, ?_⟩
  exact (dedupePass_mem_spec (existingKeys existing) [] _ r0 h1).2 h0
    (hhref.trans hh) hne

/-- Two records with distinct canonical hrefs whenever both carry one
(the href side of the dedup-key relation). -/
def distinctCanon (a b : Rec) : Prop :=
  ∀ ha hb, a.href = some ha → b.href = some hb →
    canonicalForDedupe ha ≠ canonicalForDedupe hb

theorem cleanAndDedupeResults_pairwise_canon (existing : List Rec)
    (results : List RawRec) (n : Nat) (pageUrl : String) :
    List.Pairwise distinctCanon
      (cleanAndDedupeResults existing results n pageUrl) := by
  unfold cleanAndDedupeResults
  have hP : List.Pairwise distinctCanon
      ((dedupePass (existingKeys existing) []
        (cleanedRows results pageUrl)).take n) := by
    have h1 := dedupePass_pairwise_key (existingKeys existing) []
      (cleanedRows results pageUrl)
    have h2 : List.Pairwise (fun a b => keyOf a ≠ keyOf b)
        ((dedupePass (existingKeys existing) []
          (cleanedRows results pageUrl)).take n) :=
      h1.sublist (List.take_sublist _ _)
    refine List.Pairwise.imp_of_mem @?_ h2
    intro a b hma hmb hk
    intro ha hb hha hhb hcan
    have hsa := (dedupePass_sublist (existingKeys existing) [] _).subset
      ((List.take_sublist _ _).subset hma)
    have hsb := (dedupePass_sublist (existingKeys existing) [] _).subset
      ((List.take_sublist _ _).subset hmb)
    have hnea : ha ≠ "" := cleanedRows_href_ne hsa ha hha
    have hneb : hb ≠ "" := cleanedRows_href_ne hsb hb hhb
    rw [keyOf_of_href hha hnea, keyOf_of_href hhb hneb] at hk
    exact hk hcan
  cases hf : firstCommonImage ((dedupePass (existingKeys existing) []
      (cleanedRows results pageUrl)).take n) with
  | none =>
    unfold removeCommonImages
    rw [hf]
    exact hP
  | some bad =>
    unfold removeCommonImages
    rw [hf]
    rw [List.pairwise_map]
    refine List.Pairwise.imp_of_mem @?_ hP
    intro a b _ _ hab
    intro ha hb hha hhb
    by_cases hba : a.image = some bad <;> by_cases hbb : b.image = some bad <;>
      simp_all [distinctCanon]

theorem cleanAndDedupeResults_pairwise_nohref (existing : List Rec)
    (results : List RawRec) (n : Nat) (pageUrl : String) :
    List.Pairwise
      (fun a b => ¬ (a.href = none ∧ b.href = none ∧ a.title = b.title
        ∧ a.snippet = b.snippet))
      (cleanAndDedupeResults existing results n pageUrl) := by
  unfold cleanAndDedupeResults
  have hP : List.Pairwise
      (fun a b => ¬ (a.href = none ∧ b.href = none ∧ a.title = b.title
        ∧ a.snippet = b.snippet))
      ((dedupePass (existingKeys existing) []
        (cleanedRows results pageUrl)).take n) := by
    have h1 := dedupePass_pairwise_key (existingKeys existing) []
      (cleanedRows results pageUrl)
    have h2 : List.Pairwise (fun a b => keyOf a ≠ keyOf b)
        ((dedupePass (existingKeys existing) []
          (cleanedRows results pageUrl)).take n) :=
      h1.sublist (List.take_sublist _ _)
    refine List.Pairwise.imp @?_ h2
    intro a b hk hand
    obtain ⟨hha, hhb, ht, hs⟩ := hand
    rw [keyOf_of_no_href hha, keyOf_of_no_href hhb] at hk
    unfold fallbackKey at hk
    rw [ht, hs] at hk
    exact hk rfl
  cases hf : firstCommonImage ((dedupePass (existingKeys existing) []
      (cleanedRows results pageUrl)).take n) with
  | none =>
    unfold removeCommonImages
    rw [hf]
    exact hP
  | some bad =>
    unfold removeCommonImages
    rw [hf]
    rw [List.pairwise_map]
    refine List.Pairwise.imp_of_mem @?_ hP
    intro a b _ _ hab
    by_cases hba : a.image = some bad <;> by_cases hbb : b.image = some bad <;>
      simp_all

/-- The run-level dedup invariant: stored records have pairwise-distinct
canonical hrefs (when they carry one), and stored hrefs are nonempty. -/
def GoodItems (items : List Rec) : Prop :=
  List.Pairwise distinctCanon items ∧
  (∀ r ∈ items, ∀ h0, r.href = some h0 → h0 ≠ "")

theorem goodItems_append_batch {items : List Rec} (hG : GoodItems items)
    (results : List RawRec) (n : Nat) (pageUrl : String) :
    GoodItems (items ++ cleanAndDedupeResults items results n pageUrl) := by
  obtain ⟨hpw, hshape⟩ := hG
  constructor
  · rw [List.pairwise_append]
    refine ⟨hpw, cleanAndDedupeResults_pairwise_canon items results n pageUrl, ?_⟩
    intro x hx b hb
    intro hx0 hb0 hhx hhb hcan
    have hxne : hx0 ≠ "" := hshape x hx hx0 hhx
    obtain ⟨hbne, hnotin⟩ := cleanAndDedupeResults_mem_shape hb hb0 hhb
    have hmem := mem_existingKeys hx hhx hxne
    rw [hcan] at hmem
    exact hnotin hmem
  · intro r hr h0 hh
    rcases List.mem_append.mp hr with h1 | h1
    · exact hshape r h1 h0 hh
    · exact (cleanAndDedupeResults_mem_shape h1 h0 hh).1

theorem extractItemsFromSnapshot_cases (sch : SchemaM) (pageUrl : String)
    (st : EngineState) (e : ExtractIn) :
    extractItemsFromSnapshot sch pageUrl st e = [] ∨
    ∃ rows n, extractItemsFromSnapshot sch pageUrl st e
      = cleanAndDedupeResults st.items rows n pageUrl := by
  unfold extractItemsFromSnapshot
  by_cases h0 : maxNeeded sch st = 0
  · simp [h0]
  · simp only [if_neg h0]
    split
    · exact .inr ⟨e.tier1, maxNeeded sch st, rfl⟩
    · split
      · exact .inr ⟨e.tier2, maxNeeded sch st, rfl⟩
      · exact .inr ⟨e.tier3, maxNeeded sch st, rfl⟩

theorem pushItems_good {sch : SchemaM} {pageUrl : String} {st : EngineState}
    (e : ExtractIn) (hG : GoodItems st.items) :
    GoodItems (pushItems st (extractItemsFromSnapshot sch pageUrl st e)).items := by
  rcases extractItemsFromSnapshot_cases sch pageUrl st e with h | ⟨rows, n, h⟩
  · rw [h]
    simpa [pushItems] using hG
  · rw [h]
    show GoodItems (st.items ++ cleanAndDedupeResults st.items rows n pageUrl)
    exact goodItems_append_batch hG rows n pageUrl

theorem runChildren_good {sch : SchemaM} {pageUrl : String} :
    ∀ (cs : List ExtractIn) (st : EngineState), GoodItems st.items →
    GoodItems (runChildren sch pageUrl st cs).items := by
  intro cs
  induction cs with
  | nil => intro st h; exact h
  | cons c cs ih =>
    intro st h
    rw [runChildren]
    by_cases hc : shouldContinue sch st
    · rw [if_pos hc]
      exact ih _ (pushItems_good c h)
    · rw [if_neg hc]
      exact h

theorem scrapingLoop_good {sch : SchemaM} {cfg : ConfigM} {pageUrl : String} :
    ∀ (script : List CycleIn) (st : EngineState), GoodItems st.items →
    GoodItems ((scrapingLoop sch cfg pageUrl script st).1).items := by
  intro script
  induction script with
  | nil =>
    intro st h
    rw [scrapingLoop.eq_def]
    by_cases hc : shouldContinue sch st
    · rw [if_pos hc]; exact h
    · rw [if_neg hc]; exact h
  | cons c rest ih =>
    intro st h
    rw [scrapingLoop.eq_def]
    by_cases hc : shouldContinue sch st
    · rw [if_pos hc]
      cases c with
      | ok e cs adv =>
        have h1 := @pushItems_good sch pageUrl st e h
        by_cases hfl : sch.followLinks
        · simp only [hfl, if_pos]
          have h2 := @runChildren_good sch pageUrl cs _ h1
          cases adv with
          | true => simpa using ih _ (by simpa using h2)
          | false => simpa using h2
        · simp only [hfl]
          simp only [Bool.false_eq_true, if_neg, not_false_eq_true]
          cases adv with
          | true => simpa using ih _ (by simpa using h1)
          | false => simpa using h1
      | err eo =>
        cases eo with
        | some e =>
          have h1 := @pushItems_good sch pageUrl st e h
          by_cases hstop :
              cfg.retryAttempts.getD 3
                ≤ ((pushItems st (extractItemsFromSnapshot sch pageUrl st e)).errors + 1)
          · simp only [hstop, if_pos]
            simpa using h1
          · simp only [if_neg hstop]
            simpa using ih _ (by simpa using h1)
        | none =>
          by_cases hstop : cfg.retryAttempts.getD 3 ≤ (st.errors + 1)
          · simp only [hstop, if_pos]
            simpa using h
          · simp only [if_neg hstop]
            simpa using ih _ (by simpa using h)
    · rw [if_neg hc]
      exact h

/-! Remaining combinator lemmas: first-occurrence deduplication yields
pairwise-distinct keys. -/

theorem dedupeByKey_key_not_seen {α : Type} {key : α → String} :
    ∀ (seen : List String) (l : List α) (x : α),
    x ∈ dedupeByKey key seen l → key x ∉ seen := by
  intro seen l
  induction l generalizing seen with
  | nil => intro x hx; simp [dedupeByKey] at hx
  | cons y ys ih =>
    intro x hx
    rw [dedupeByKey] at hx
    by_cases hy : seen.contains (key y)
    · rw [if_pos hy] at hx
      exact ih seen x hx
    · rw [if_neg hy] at hx
      rcases List.mem_cons.mp hx with h1 | h1
      · subst h1
        intro hmem
        exact hy (stringContains_iff.mpr hmem)
      · intro hmem
        exact ih (key y :: seen) x h1 (by simp [hmem])

theorem dedupeByKey_pairwise {α : Type} (key : α → String) :
    ∀ (seen : List String) (l : List α),
    List.Pairwise (fun a b => key a ≠ key b) (dedupeByKey key seen l) := by
  intro seen l
  induction l generalizing seen with
  | nil => simp [dedupeByKey]
  | cons y ys ih =>
    rw [dedupeByKey]
    by_cases hy : seen.contains (key y)
    · rw [if_pos hy]; exact ih seen
    · rw [if_neg hy]
      refine List.pairwise_cons.mpr ⟨?_, ih (key y :: seen)⟩
      intro b hb heq
      have hns := dedupeByKey_key_not_seen (key y :: seen) ys b hb
      simp [← heq] at hns

/-! Concrete runs exercising the properties above on explicit inputs. -/

/-- A page URL for the capacity run. -/
def urlEx : String := "https://site.com/list"

/-- Ten qualifying raw rows with distinct titles and hrefs. -/
def rawTen : List RawRec :=
  (List.range 10).map (fun i =>
    { title := some ("Item " ++ toString i)
      href := some ("https://site.com/p" ++ toString i) })

/-- A schema asking for at most five items. -/
def schFive : SchemaM :=
  { target := { maxPages := none, maxItems := some 5 }, followLinks := false }

/-- A retry configuration left at its defaults. -/
def cfg0 : ConfigM := { retryAttempts := none, retryDelay := none }

/-- One completed cycle offering the ten rows. -/
def scriptC1 : List CycleIn := [CycleIn.ok { tier1 := rawTen } [] false]

/-- A page URL for the cross-cycle dedup run. -/
def urlC3 : String := "https://site.com/"

/-- An hrefless row: its dedup key is the `(title, snippet)` fallback. -/
def rowC3 : RawRec := { title := some "Widget", snippet := some "A widget" }

/-- A schema with no page or item limits. -/
def schC3 : SchemaM :=
  { target := { maxPages := none, maxItems := none }, followLinks := false }

/-- A retry configuration left at its defaults. -/
def cfgC3 : ConfigM := { retryAttempts := none, retryDelay := none }

/-- Two cycles each extracting the same hrefless row. -/
def scriptC3 : List CycleIn :=
  [CycleIn.ok { tier1 := [rowC3] } [] true, CycleIn.ok { tier1 := [rowC3] } [] false]

/-- One repeated sibling container, 30 by 20 pixels with two children. -/
def itemRow : DomElem := .mk "li" 30 20 [.mk "a" 0 0 [], .mk "p" 0 0 []]

/-- A container with ten structurally identical siblings. -/
def domTenList : DomElem := .mk "main" 800 600 (List.replicate 10 itemRow)

/-- A container with five structurally identical siblings. -/
def domFiveList : DomElem := .mk "main" 800 600 (List.replicate 5 itemRow)

/-- An anchor with only next-like text (score 2). -/
def anchTxt : AnchorM :=
  { selector := "#txt", text := "Next", hrefAbs := "https://s.com/p2" }

/-- An anchor with only `rel="next"` (score 3), later in document order. -/
def anchRel : AnchorM :=
  { selector := "#rel", rel := "next", hrefAbs := "https://s.com/p2b" }

/-- A top-frame anchor with next-like text only. -/
def m1 : AnchorM :=
  { selector := "#m1", text := "Next", hrefAbs := "https://s.com/a" }

/-- A second top-frame anchor with next-like text only. -/
def m2 : AnchorM :=
  { selector := "#m2", text := "Next page", hrefAbs := "https://s.com/b" }

/-- A subframe anchor scoring on every heuristic (score 8). -/
def f1a : AnchorM :=
  { selector := "#f1a"
    rel := "next"
    text := "Next"
    hrefAttr := "https://s.com/c?page=2"
    hrefAbs := "https://s.com/c?page=2"
    y := 900
    h := 50 }

/-- Two frames: the top frame holds the weak anchors, the subframe the
strong one. -/
def framesC5 : List (String × Int × List AnchorM) :=
  [("main", 1000, [m1, m2]), ("f1", 1000, [f1a])]

/-- The subframe's score-8 candidate as scored and tagged. -/
def fcBig : String × PagCand :=
  ("f1", { selector := "#f1a", name := "Next", href := "https://s.com/c?page=2", score := 8 })

/-- A recurring image URL. -/
def imgA : String := "https://a.com/i.png"

/-- A second recurring image URL. -/
def imgB : String := "https://b.com/i.png"

/-- Ten raw rows with distinct titles, five carrying each image. -/
def rawC7 : List RawRec :=
  (List.range 10).map (fun i =>
    { title := some ("t" ++ toString i)
      image := some (if i % 2 = 0 then imgA else imgB) })

/-- A page URL for the common-image batch. -/
def urlC7 : String := "https://site.com/"

/-- A cleaned batch of five records all carrying the same image. -/
def batchA : List Rec :=
  List.replicate 5 { title := some "x", snippet := none, href := none, image := some imgA }

/-- A schema with no limits for the retry run. -/
def schC8 : SchemaM :=
  { target := { maxPages := none, maxItems := none }, followLinks := false }

/-- Two configured retry attempts with a 500 ms delay. -/
def cfgC8 : ConfigM := { retryAttempts := some 2, retryDelay := some 500 }

/-- A page URL for the retry run. -/
def urlC8 : String := "https://site.com/retry"

/-- Two consecutive failing cycles. -/
def scriptC8 : List CycleIn := [CycleIn.err none, CycleIn.err none]

/-- A schema asking for at most two pages. -/
def schC9 : SchemaM :=
  { target := { maxPages := some 2, maxItems := none }, followLinks := false }

/-- A retry configuration left at its defaults. -/
def cfgC9 : ConfigM := { retryAttempts := none, retryDelay := none }

/-- A page URL for the page-limit run. -/
def urlC9 : String := "https://site.com/page"

/-- One failing cycle, then one completed advancing cycle. -/
def scriptC9 : List CycleIn := [CycleIn.err none, CycleIn.ok {} [] true]

/-- One frame with two controls whose reference ids collide. -/
def framesC10 : List FrameData :=
  [{ frameId := "main", controls := [{ selector := "Aa" }, { selector := "BB" }] }]

/-- Extractor options left at their defaults. -/
def optsC10 : OptionsM := {}

/-- The registered reference of the first colliding control. -/
def nrAa : NodeRefM := nodeRefOf "main" { selector := "Aa" }

/-! The claims. -/

/-- C1: with a configured `target.maxItems = m`, the final state of any run
started from the fresh state holds at most `m` records; every extraction step
returns at most the remaining capacity `maxItems - alreadyExtracted` and is
skipped entirely (returns `[]`) at zero capacity; concretely, with
`maxItems = 5` against a page offering 10 qualifying items the run ends with
exactly 5 records. -/
theorem claim_maxItems_cap (sch : SchemaM) (cfg : ConfigM) (pageUrl : String)
    (script : List CycleIn) (m : Nat) (hm : sch.target.maxItems = some m) :
    ((scrapingLoop sch cfg pageUrl script initialState).1).items.length ≤ m ∧
    (∀ st e, (extractItemsFromSnapshot sch pageUrl st e).length
      ≤ maxNeeded sch st) ∧
    (∀ st e, maxNeeded sch st = 0 →
      extractItemsFromSnapshot sch pageUrl st e = []) ∧
    ((scrapingLoop schFive cfg0 urlEx scriptC1 initialState).1).items.length
      = 5 := by
  refine ⟨scrapingLoop_items_le hm pageUrl script initialState
      (by simp [initialState]),
    fun st e => extractItemsFromSnapshot_length sch pageUrl st e,
    fun st e h => extractItemsFromSnapshot_zero e h, ?_⟩
  decide

/-- C1 witness: the capacity bound at the concrete five-item schema. -/
theorem claim_maxItems_cap_witness :
    schFive.target.maxItems = some 5 ∧
    ((scrapingLoop schFive cfg0 urlEx scriptC1 initialState).1).items.length
      ≤ 5 :=
  ⟨rfl, (claim_maxItems_cap schFive cfg0 urlEx scriptC1 5 rfl).1⟩

/-- C2: URL canonicalization is idempotent, and the documented example holds:
the canonical key of `https://x.com/a?utm_source=y#frag` (fragment stripped,
tracking parameter deleted, emptied query dropped) equals that of
`https://X.com/a` (host lowercased). -/
theorem claim_canonical_idem :
    (∀ u : String,
      canonicalForDedupe (canonicalForDedupe u) = canonicalForDedupe u) ∧
    canonicalForDedupe "https://x.com/a?utm_source=y#frag"
      = canonicalForDedupe "https://X.com/a" := by
  constructor
  · intro u
    show String.mk (canonicalCore (String.mk (canonicalCore u.data)).data)
      = String.mk (canonicalCore u.data)
    rw [show (String.mk (canonicalCore u.data)).data = canonicalCore u.data
      from rfl, canonicalCore_idem]
  · rfl

/-- C3 (amended): records carrying an href have pairwise-distinct canonical
hrefs across the whole run (the global `existing` set covers every earlier
cycle); one deduplication pass yields pairwise-distinct dedup keys; and within
a single batch, two hrefless records never share their `(title, snippet)`
fallback pair.  The fallback key of hrefless records is only checked within
one batch, not across cycles. -/
theorem claim_dedupe_runlevel (sch : SchemaM) (cfg : ConfigM)
    (pageUrl : String) (script : List CycleIn) (existing : List Rec)
    (results : List RawRec) (n : Nat) (u : String) :
    List.Pairwise distinctCanon
      ((scrapingLoop sch cfg pageUrl script initialState).1).items ∧
    List.Pairwise (fun a b => keyOf a ≠ keyOf b)
      (dedupePass (existingKeys existing) [] (cleanedRows results u)) ∧
    List.Pairwise
      (fun a b => ¬ (a.href = none ∧ b.href = none ∧ a.title = b.title
        ∧ a.snippet = b.snippet))
      (cleanAndDedupeResults existing results n u) := by
  refine ⟨(scrapingLoop_good script initialState ⟨List.Pairwise.nil, ?_⟩).1,
    dedupePass_pairwise_key (existingKeys existing) [] (cleanedRows results u),
    cleanAndDedupeResults_pairwise_nohref existing results n u⟩
  intro r hr
  simp [initialState] at hr

/-- C3 counterexample: the same hrefless row extracted on two different cycles
ends up in `extractedItems` twice, with equal dedup keys both times. -/
theorem claim_dedupe_cross_cycle_cex :
    ((scrapingLoop schC3 cfgC3 urlC3 scriptC3 initialState).1).items.length
      = 2 ∧
    ¬ List.Pairwise (fun a b => keyOf a ≠ keyOf b)
      ((scrapingLoop schC3 cfgC3 urlC3 scriptC3 initialState).1).items := by
  constructor
  · rfl
  · decide

/-- C4: every emitted list block counts at least 8 repeated siblings and roots
an element of bounding-box area at least the 200-square-pixel floor; ten
structurally identical siblings of sufficient size yield exactly one list
block with `itemCount = 10`, while five yield none. -/
theorem claim_list_threshold (containers : List DomElem) (maxLists : Nat) :
    (∀ lb ∈ getListBlocks containers maxLists,
      8 ≤ lb.itemCount ∧ 200 ≤ lb.root.area) ∧
    (getListBlocks [domTenList] 2).map (fun lb => lb.itemCount) = [10] ∧
    getListBlocks [domFiveList] 2 = [] :=
  ⟨fun _ h => getListBlocks_mem h, rfl, rfl⟩

/-- C5 (amended): within one frame the scored pagination candidates come out
sorted by descending score (stable, ties in document order) and truncated to
4; across frames the per-frame lists are concatenated in frame order,
deduplicated by `(href, selector, frameId)`, and truncated to 2 without any
re-sorting, so the kept pair is an order-preserving sublist of the merged
candidates with pairwise-distinct keys; concretely, a `rel="next"` anchor
(score 3) ranks before a text-only "Next" anchor (score 2) within its frame. -/
theorem claim_pagination_ranking (innerH : Int) (anchors : List AnchorM)
    (frames : List (String × Int × List AnchorM)) :
    List.Pairwise (fun a b => b.score ≤ a.score)
      (getPaginationCandidatesScored innerH anchors) ∧
    (getPaginationCandidatesScored innerH anchors).length ≤ 4 ∧
    (paginationPipeline frames).Sublist (allPagCandidates frames) ∧
    List.Pairwise (fun a b => pagKey a ≠ pagKey b)
      (paginationPipeline frames) ∧
    (paginationPipeline frames).length ≤ 2 ∧
    (getPaginationCandidatesScored 1000 [anchTxt, anchRel]).map
      (fun c => c.selector) = ["#rel", "#txt"] := by
  refine ⟨?_, length_take_le _ _, ?_, ?_, length_take_le _ _, rfl⟩
  · exact ((sortDesc_sorted (fun c : PagCand => c.score) _).sublist
      (List.take_sublist _ _))
  · exact (List.take_sublist _ _).trans (dedupeByKey_sublist pagKey [] _)
  · exact ((dedupeByKey_pairwise pagKey [] _).sublist (List.take_sublist _ _))

/-- C5 counterexample: a score-8 candidate from a later frame is dropped while
two score-2 candidates from the first frame are kept, so the snapshot does not
keep the two top-scoring candidates after the cross-frame merge. -/
theorem claim_pagination_top2_cex :
    fcBig ∈ allPagCandidates framesC5 ∧
    (∀ gc ∈ paginationPipeline framesC5, gc.2.score < fcBig.2.score) ∧
    fcBig ∉ paginationPipeline framesC5 := by
  decide

/-- C6: whatever the frames contain, the assembled compact snapshot satisfies
every size cap: at most 6 headings, `maxLists` lists, `maxControls` controls,
2 pagination candidates and `maxForms` forms, with the defaults resolving to
30 controls, 2 lists, 3 forms and 12 form fields. -/
theorem claim_snapshot_caps (frames : List FrameData) (opts : OptionsM) :
    (build frames opts).1.headings.length ≤ 6 ∧
    (build frames opts).1.lists.length ≤ (resolveLimits opts).maxLists ∧
    (build frames opts).1.controls.length
      ≤ (resolveLimits opts).maxControls ∧
    (build frames opts).1.pagination.length ≤ 2 ∧
    (build frames opts).1.forms.length ≤ (resolveLimits opts).maxForms ∧
    resolveLimits {} = ⟨30, 2, 3, 12⟩ :=
  ⟨build_headings_le frames opts, build_lists_le frames opts,
    build_controls_le frames opts, build_pagination_le frames opts,
    build_forms_le frames opts, rfl⟩

/-- C7 (amended): only the first recurring image URL of a batch (in
first-occurrence order) is nulled out, on all the records that carried it,
leaving the batch's length and every other record untouched; further
recurring image URLs are kept. -/
theorem claim_common_image {l : List Rec} {bad : String}
    (h : firstCommonImage l = some bad) :
    5 ≤ imageCount l bad ∧
    (∀ r ∈ removeCommonImages l, r.image ≠ some bad) ∧
    (∀ r ∈ l, r.image ≠ some bad → r ∈ removeCommonImages l) ∧
    (removeCommonImages l).length = l.length :=
  ⟨firstCommonImage_count h, removeCommonImages_not_bad h,
    fun r hr hne => removeCommonImages_keep hr (fun b hb => by
      rw [h] at hb
      obtain rfl := Option.some.inj hb
      exact hne),
    removeCommonImages_length l⟩

/-- C7 witness: a batch of five identical images is fully nulled. -/
theorem claim_common_image_witness :
    firstCommonImage batchA = some imgA ∧
    (∀ r ∈ removeCommonImages batchA, r.image ≠ some imgA) :=
  ⟨rfl, (@claim_common_image batchA imgA rfl).2.1⟩

/-- C7 counterexample: with two image URLs each recurring five times in one
batch, the second one survives on every record that carried it — only the
first recurring URL is removed. -/
theorem claim_common_image_cex :
    5 ≤ imageCount ((dedupePass (existingKeys []) []
      (cleanedRows rawC7 urlC7)).take 100) imgB ∧
    5 ≤ imageCount (cleanAndDedupeResults [] rawC7 100 urlC7) imgB ∧
    imageCount (cleanAndDedupeResults [] rawC7 100 urlC7) imgA = 0 :=
  ⟨by decide, by decide, by decide⟩

/-- C8: starting below the retry-attempt ceiling, every cycle the loop begins
starts with an accumulated error count strictly below the ceiling (the loop
aborts once errors reach it), and every backoff wait is exactly the fixed
configured delay. -/
theorem claim_retry_ceiling (sch : SchemaM) (cfg : ConfigM) (pageUrl : String)
    (script : List CycleIn) (st : EngineState)
    (h : st.errors < cfg.retryAttempts.getD 3) :
    ∀ ev ∈ (scrapingLoop sch cfg pageUrl script st).2,
      (∀ errs p, ev = TraceEvent.cycleStart errs p →
        errs < cfg.retryAttempts.getD 3) ∧
      (∀ ms, ev = TraceEvent.waited ms → ms = cfg.retryDelay.getD 1000) :=
  scrapingLoop_trace_spec sch cfg pageUrl script st h

/-- C8 witness: a run with two configured attempts and a 500 ms delay waits
exactly 500 ms between its two failing cycles. -/
theorem claim_retry_ceiling_witness :
    initialState.errors < cfgC8.retryAttempts.getD 3 ∧
    TraceEvent.waited 500
      ∈ (scrapingLoop schC8 cfgC8 urlC8 scriptC8 initialState).2 ∧
    (∀ ms, TraceEvent.waited 500 = TraceEvent.waited ms →
      ms = cfgC8.retryDelay.getD 1000) :=
  ⟨by decide, by decide,
    (claim_retry_ceiling schC8 cfgC8 urlC8 scriptC8 initialState (by decide)
      (TraceEvent.waited 500) (by decide)).2⟩

/-- C9 (amended): with `target.maxPages = N` (nonzero), a run whose cycles all
complete executes at most `N - 1` snapshot/extract cycles; with
`maxPages = 1` the loop body never runs and the fresh state comes back
unchanged; a limit of 0 disables the check entirely (the truthiness guard).
Failing cycles do not advance the page, so their retries can push the cycle
count past `N - 1`. -/
theorem claim_page_limit (sch : SchemaM) (cfg : ConfigM) (pageUrl : String)
    (script : List CycleIn) :
    (∀ n, sch.target.maxPages = some n → n ≠ 0 →
      (∀ c ∈ script, isOkCycle c = true) →
      countCycles (scrapingLoop sch cfg pageUrl script initialState).2
        ≤ n - 1) ∧
    (sch.target.maxPages = some 1 →
      scrapingLoop sch cfg pageUrl script initialState = (initialState, [])) ∧
    (∀ v, limitHit (some 0) v = false) := by
  refine ⟨?_, ?_, fun v => by simp [limitHit]⟩
  · intro n hm hn hok
    exact scrapingLoop_cycles_le hm hn script initialState hok
  · intro hm
    have hc : shouldContinue sch initialState = false := by
      simp [shouldContinue, limitHit, hm, initialState]
    rw [scrapingLoop.eq_def, if_neg (by simp [hc])]

/-- C9 counterexample: with `maxPages = 2`, one failing cycle followed by one
completed cycle begins 2 cycles — more than the claimed `N - 1 = 1` — because
the failing cycle never advanced the page. -/
theorem claim_page_limit_cex :
    schC9.target.maxPages = some 2 ∧
    countCycles (scrapingLoop schC9 cfgC9 urlC9 scriptC9 initialState).2
      = 2 :=
  ⟨rfl, rfl⟩

/-- C10 (amended): every `NodeRef` placed into the compact summary has its
`refId` present as a key of the returned `refMap`, and the stored value is the
selector and frame id of a registered `NodeRef` with that same `refId` — the
last-registered one, not necessarily this one; `refId` is a deterministic pure
function of `(frameId, selector, href, name)`.  Distinct tuples can hash to
the same `refId`, and the later registration then overwrites the earlier
entry. -/
theorem claim_refmap (frames : List FrameData) (opts : OptionsM) :
    (∀ nr ∈ summarizedRefs (build frames opts).1,
      ∃ v, List.lookup nr.refId (build frames opts).2 = some v ∧
        ∃ c ∈ registeredAll frames, c.refId = nr.refId ∧
          v = (c.selector, c.frameId)) ∧
    (∀ fa fb sa sb ha hb na nb, fa = fb → sa = sb → ha = hb → na = nb →
      makeRefId fa sa ha na = makeRefId fb sb hb nb) := by
  constructor
  · intro nr hnr
    have hreg := mem_registered_of_summarized hnr
    obtain ⟨v, hv⟩ := refMap_lookup_of_registered hreg
    exact ⟨v, hv, refMap_lookup_inv hv⟩
  · intro fa fb sa sb ha hb na nb hf hs hh hn
    rw [hf, hs, hh, hn]

/-- C10 counterexample: two controls of the same frame with different
selectors receive the same `refId`, and the summary's first control then
resolves through the `refMap` to the other control's selector. -/
theorem claim_refmap_collision_cex :
    makeRefId "main" "Aa" none none = makeRefId "main" "BB" none none ∧
    nrAa ∈ summarizedRefs (build framesC10 optsC10).1 ∧
    List.lookup nrAa.refId (build framesC10 optsC10).2
      ≠ some (nrAa.selector, nrAa.frameId) :=
  ⟨rfl, by decide, by decide⟩

end Scraper
